import Mathlib

/-!
# Verification of the s3-manager core (Go) against its specification

Shallow embedding of the repository's core logic:
* `pkg/utils` — archive building (`CreateArchive`, `shouldExclude`, `getPathSize`,
  `GenerateArchiveName`, `ValidatePaths`, `CleanupTempFile`),
* `internal/s3client` — `Client.buildRemotePath`, `Client.DeleteOldFiles`,
  `Client.UploadFiles`, `Client.uploadPath`, `Client.DownloadLatestFile`,
* the Go standard-library glob matcher `path/filepath.Match` that
  `shouldExclude` delegates to.

Modelling conventions:
* Go strings are modelled as `List Char` (`Str`); Go byte/rune distinctions do
  not matter for the properties at hand.
* Local filesystem paths are lists of components (`Path`); the filesystem is a
  finite tree of named files (with sizes) and directories.
* `time.Time` values are abstract `Int` instants ordered by `<`
  (`t.Before u ↔ t < u`); wall-clock timestamps used for naming are a
  `DateTime` record rendered exactly as Go's layout `"20060102_150405"`.
* Network effects (S3 puts, bulk deletes, downloads) are oracles
  (`Str → Bool`, `List Str → Bool`): the boolean says whether the call
  succeeds.  Issued bulk-delete calls are additionally returned as a trace so
  that claims about the calls themselves can be stated.
* `int64` is modelled as `Int` (no overflow is near any claim) and `float64`
  division for the compression ratio as exact `ℚ` division.
-/

namespace S3M

/-- Go strings, as lists of characters. -/
abbrev Str := List Char

/-- Local filesystem paths, as lists of components (no separators inside). -/
abbrev Path := List Str

/-- `strings.Join(parts, sep)`-style intercalation. -/
def interString (sep : Str) : List Str → Str
  | [] => []
  | [s] => s
  | s :: rest => s ++ sep ++ interString sep rest

/-- Render a component path as the Go string that names it (components joined
by `/`), mirroring how the Go code holds paths as strings. -/
def pathStr (p : Path) : Str := interString ['/'] p

/-- `filepath.Base` on a component path: the last component. -/
def baseP (p : Path) : Str := p.getLastD []

/-- One step of `Client.buildRemotePath`:
`strings.TrimPrefix(destinationPath, "/")` — remove one leading `/` if present. -/
def trimOneLeadingSlash (s : Str) : Str :=
  match s with
  | [] => []
  | c :: rest => if c = '/' then rest else c :: rest

/-- One step of `Client.buildRemotePath`: append `/` unless the string already
ends with one (`strings.HasSuffix(destinationPath, "/")`). -/
def ensureTrailingSlash (s : Str) : Str :=
  if s.getLast? = some '/' then s else s ++ ['/']

/-- `Client.buildRemotePath` from `internal/s3client`:
if the destination is empty the key is the filename; otherwise one leading
`/` is trimmed, a trailing `/` is appended if absent, and the filename is
appended. -/
def buildRemotePath (destinationPath filename : Str) : Str :=
  match destinationPath with
  | [] => filename
  | _ => ensureTrailingSlash (trimOneLeadingSlash destinationPath) ++ filename

/-- Modelled from the spec's words (§4.3, the refinement target for C5):
"ensure it ends with exactly one `/`". -/
def exactlyOneTrailingSlash (s : Str) : Str :=
  (s.reverse.dropWhile (· = '/')).reverse ++ ['/']

/-- Modelled from the spec's words for §4.3 RemotePathResolver (the refinement
target for C5): strip ANY leading `/` from the destination prefix, ensure it
ends with EXACTLY one `/`, and concatenate with the filename. -/
def resolveSpec (destinationPath filename : Str) : Str :=
  match destinationPath with
  | [] => filename
  | _ => exactlyOneTrailingSlash (destinationPath.dropWhile (· = '/')) ++ filename

theorem head?_ensureTrailingSlash (s : Str) (hs : s ≠ []) :
    (ensureTrailingSlash s).head? = s.head? := by
  unfold ensureTrailingSlash
  match s, hs with
  | c :: rest, _ =>
    split <;> simp

/-- C4 counterexample input: a destination prefix with two leading slashes.
`strings.TrimPrefix` removes only one of them, so the produced key starts
with `/`. -/
theorem buildRemotePath_doubleSlash :
    buildRemotePath ['/', '/', 'a'] ['f'] = ['/', 'a', '/', 'f'] ∧
      (buildRemotePath ['/', '/', 'a'] ['f']).head? = some '/' := by
  constructor <;> rfl

theorem trimOne_ne_nil_head (c : Char) (rest : Str)
    (h2 : (c :: rest).take 2 ≠ ['/', '/']) (h1 : c :: rest ≠ ['/']) :
    trimOneLeadingSlash (c :: rest) ≠ [] ∧
      (trimOneLeadingSlash (c :: rest)).head? ≠ some '/' := by
  simp only [trimOneLeadingSlash]
  by_cases hc : c = '/'
  · subst hc
    simp only [if_pos rfl]
    match rest with
    | [] => exact absurd rfl h1
    | r :: rs =>
      refine ⟨by simp, ?_⟩
      intro hh
      have hr : r = '/' := by simpa using hh
      subst hr
      exact h2 rfl
  · rw [if_neg hc]
    refine ⟨by simp, ?_⟩
    intro hh
    exact hc (by simpa using hh)

/-- C4 (amended): the remote key produced by `buildRemotePath` never starts
with `/` provided the destination prefix does not start with two slashes, is
not exactly the single-character string `/`, and — when the prefix is empty —
the filename does not itself start with `/`.  The resolver strips at most one
leading slash, so those are exactly the guarded cases. -/
theorem buildRemotePath_amended (d f : Str)
    (h2 : d.take 2 ≠ ['/', '/']) (h1 : d ≠ ['/'])
    (hf : d = [] → f.head? ≠ some '/') :
    (buildRemotePath d f).head? ≠ some '/' := by
  match d with
  | [] => simpa [buildRemotePath] using hf rfl
  | c :: rest =>
    obtain ⟨hne, hh⟩ := trimOne_ne_nil_head c rest h2 h1
    have hmain : (buildRemotePath (c :: rest) f).head? =
        (trimOneLeadingSlash (c :: rest)).head? := by
      simp only [buildRemotePath]
      rw [List.head?_append_of_ne_nil]
      · exact head?_ensureTrailingSlash _ hne
      · unfold ensureTrailingSlash
        split
        · exact hne
        · simp
    rw [hmain]
    exact hh

theorem buildRemotePath_amended_witness :
    (['/', 'a'] : Str).take 2 ≠ ['/', '/'] ∧ (['/', 'a'] : Str) ≠ ['/'] ∧
      (buildRemotePath ['/', 'a'] ['f'] ).head? ≠ some '/' :=
  ⟨by decide, by decide,
    buildRemotePath_amended ['/', 'a'] ['f'] (by decide) (by decide) (by decide)⟩

/-- C5 counterexample input: a destination prefix ending in two slashes.  The
code keeps both (`strings.HasSuffix` sees a trailing `/` and appends nothing),
while the spec's resolver demands exactly one. -/
theorem buildRemotePath_vs_spec_doubleTrailing :
    buildRemotePath ['a', '/', '/'] ['f'] = ['a', '/', '/', 'f'] ∧
      resolveSpec ['a', '/', '/'] ['f'] = ['a', '/', 'f'] ∧
      buildRemotePath ['a', '/', '/'] ['f'] ≠ resolveSpec ['a', '/', '/'] ['f'] :=
  ⟨by decide, by decide, by decide⟩

/-- On the trailing-slash step, code and spec agree whenever the incoming
string does not already end in two slashes. -/
theorem trailingSlash_eq (l : Str) (h : l.reverse.take 2 ≠ ['/', '/']) :
    ensureTrailingSlash l = exactlyOneTrailingSlash l := by
  unfold ensureTrailingSlash exactlyOneTrailingSlash
  have hl : l = l.reverse.reverse := by simp
  rw [hl] at h ⊢
  generalize l.reverse = r at *
  simp only [List.reverse_reverse] at h ⊢
  match r with
  | [] => simp
  | c :: rs =>
    by_cases hc : c = '/'
    · subst hc
      have hrs : rs.head? ≠ some '/' := by
        intro hh
        match rs with
        | [] => simp at hh
        | x :: xs =>
          have hx : x = '/' := by simpa using hh
          subst hx
          exact h rfl
      have hdw : rs.dropWhile (· = '/') = rs := by
        match rs with
        | [] => rfl
        | x :: xs =>
          have hx : x ≠ '/' := by
            intro hx; exact hrs (by simp [hx])
          simp [List.dropWhile_cons, hx]
      simp [List.getLast?_reverse, List.dropWhile_cons, hdw, List.reverse_cons]
    · simp [List.getLast?_reverse, List.dropWhile_cons, hc]

theorem trimOne_eq_dropWhile (d : Str) (h2 : d.take 2 ≠ ['/', '/']) :
    trimOneLeadingSlash d = d.dropWhile (· = '/') := by
  match d with
  | [] => rfl
  | c :: rest =>
    simp only [trimOneLeadingSlash, List.dropWhile_cons]
    by_cases hc : c = '/'
    · subst hc
      simp only [if_pos rfl]
      rw [if_pos (by simp)]
      match rest with
      | [] => rfl
      | x :: xs =>
        have hx : x ≠ '/' := by
          intro hx; subst hx; exact h2 rfl
        simp [List.dropWhile_cons, hx]
    · simp [hc]

theorem trimOne_tail_cond (d : Str) (h3 : d.reverse.take 2 ≠ ['/', '/']) :
    (trimOneLeadingSlash d).reverse.take 2 ≠ ['/', '/'] := by
  match d with
  | [] => simp only [trimOneLeadingSlash]; exact h3
  | c :: rest =>
    simp only [trimOneLeadingSlash]
    by_cases hc : c = '/'
    · subst hc
      rw [if_pos rfl]
      intro hh
      apply h3
      have hsplit : rest.reverse = '/' :: '/' :: rest.reverse.drop 2 := by
        conv_lhs => rw [← List.take_append_drop 2 rest.reverse]
        rw [hh]
        rfl
      rw [List.reverse_cons, hsplit]
      rfl
    · rwa [if_neg hc]

/-- C5 (amended): `buildRemotePath` agrees with the spec's resolver (strip any
leading `/`, ensure exactly one trailing `/`, concatenate) whenever the
destination prefix neither starts nor ends with a double slash; in particular
the empty prefix returns the filename unchanged and the three quoted examples
`resolve("a/b", "f.txt")`, `resolve("a/b/", "f.txt")` and
`resolve("/a", "f.txt")` all hold. -/
theorem buildRemotePath_spec_amended (d f : Str)
    (h2 : d.take 2 ≠ ['/', '/']) (h3 : d.reverse.take 2 ≠ ['/', '/']) :
    buildRemotePath d f = resolveSpec d f ∧
      buildRemotePath [] f = f ∧
      buildRemotePath ['a', '/', 'b'] ['f'] = ['a', '/', 'b', '/', 'f'] ∧
      buildRemotePath ['a', '/', 'b', '/'] ['f'] = ['a', '/', 'b', '/', 'f'] ∧
      buildRemotePath ['/', 'a'] ['f'] = ['a', '/', 'f'] := by
  refine ⟨?_, rfl, by decide, by decide, by decide⟩
  match d with
  | [] => rfl
  | c :: rest =>
    show ensureTrailingSlash (trimOneLeadingSlash (c :: rest)) ++ f =
      exactlyOneTrailingSlash ((c :: rest).dropWhile (· = '/')) ++ f
    rw [← trimOne_eq_dropWhile _ h2, trailingSlash_eq _ (trimOne_tail_cond _ h3)]

theorem buildRemotePath_spec_amended_witness :
    (['/', 'a'] : Str).take 2 ≠ ['/', '/'] ∧
      (['/', 'a'] : Str).reverse.take 2 ≠ ['/', '/'] ∧
      buildRemotePath ['/', 'a'] ['x'] = resolveSpec ['/', 'a'] ['x'] :=
  ⟨by decide, by decide,
    (buildRemotePath_spec_amended ['/', 'a'] ['x'] (by decide) (by decide)).1⟩

/-! ## Deleting old objects: `Client.DeleteOldFiles` -/

/-- Errors surfaced by the core operations (`fmt.Errorf` values in Go,
distinguished here by constructor and carried data). -/
inductive OpError where
  | pathNotFound (p : Path)
  | statFailed (p : Path)
  | archiveAddFailed (p : Path)
  | uploadFailed (remote : Str)
  | batchDeleteFailed
  | noFilesFound (folder : Str)
  | downloadFailed (key : Str)
deriving DecidableEq

/-- A listed S3 object (`types.Object`): key, last-modified instant, size.
`LastModified` pointers are taken non-nil, as the provider returns them. -/
structure S3Object where
  key : Str
  lastModified : Int
  size : Int
deriving DecidableEq

/-- `models.DeleteResult` (presentation-only fields `TotalSizeHuman` and
`OperationTime` omitted; `CutoffDate` kept as the instant). -/
structure DeleteResult where
  bucketName : Str
  folder : Str
  daysOld : Int
  deletedFiles : List Str
  deletedCount : Nat
  totalSizeBytes : Int
  cutoffDate : Int
deriving DecidableEq

/-- The listing key computed by `DeleteOldFiles`/`DownloadLatestFile`:
`if !strings.HasSuffix(prefix, "/") && prefix != "" { prefix += "/" }`. -/
def listKey (folder : Str) : Str :=
  if folder.getLast? ≠ some '/' ∧ folder ≠ [] then folder ++ ['/'] else folder

/-- The batching loop bound `for i := 0; i < len(toDelete); i += 1000`:
consecutive slices of at most 1000 keys, in order. -/
def chunksOf1000 {α : Type} : List α → List (List α)
  | [] => []
  | l@(_ :: _) => l.take 1000 :: chunksOf1000 (l.drop 1000)
termination_by l => l.length
decreasing_by simp_all; omega

/-- The sequential bulk-delete loop.  `del` is the S3 `DeleteObjects` call
(true = success).  Returns the accumulated `deletedCount` (or the error that
aborted the loop) together with the trace of issued bulk-delete calls. -/
def deleteBatches (del : List Str → Bool) :
    List (List Str) → Except OpError Nat × List (List Str)
  | [] => (.ok 0, [])
  | b :: rest =>
    if del b then
      let r := deleteBatches del rest
      (r.1.map (fun c => b.length + c), b :: r.2)
    else (.error .batchDeleteFailed, [b])

/-- The deletion candidates: objects listed under the prefix whose
last-modified instant is strictly before the cutoff
(`obj.LastModified.Before(cutoffDate)`), in discovery order. -/
def deleteCandidates (lister : Str → List S3Object) (folder : Str)
    (cutoffDate : Int) : List S3Object :=
  (lister (listKey folder)).filter (fun o => o.lastModified < cutoffDate)

/-- `Client.DeleteOldFiles` from `internal/s3client`.  `lister` stands for the
paginated `ListObjectsV2` enumeration under a prefix (pages concatenated in
provider order); `cutoffDate` is the instant `time.Now().AddDate(0, 0, -daysOld)`.
On a batch failure the error is returned and no `DeleteResult` is built
(`Except.map` passes the error through, as the Go early `return nil, err` does).
The second component is the trace of issued bulk-delete calls. -/
def DeleteOldFiles (lister : Str → List S3Object) (del : List Str → Bool)
    (bucketName folder : Str) (daysOld cutoffDate : Int) (dryMode : Bool) :
    Except OpError DeleteResult × List (List Str) :=
  let toDelete := deleteCandidates lister folder cutoffDate
  let deletedFiles := toDelete.map S3Object.key
  let totalSize := (toDelete.map S3Object.size).sum
  let step :=
    if dryMode then ((Except.ok 0 : Except OpError Nat), ([] : List (List Str)))
    else deleteBatches del (chunksOf1000 deletedFiles)
  (step.1.map (fun deletedCount =>
    { bucketName := bucketName, folder := folder, daysOld := daysOld,
      deletedFiles := deletedFiles, deletedCount := deletedCount,
      totalSizeBytes := totalSize, cutoffDate := cutoffDate }), step.2)

theorem chunksOf1000_flatten {α : Type} (l : List α) : (chunksOf1000 l).flatten = l := by
  induction l using chunksOf1000.induct with
  | case1 => simp [chunksOf1000]
  | case2 a as ih =>
    rw [chunksOf1000]
    simp only [List.flatten_cons, ih]
    exact List.take_append_drop 1000 (a :: as)

theorem chunksOf1000_mem {α : Type} (l : List α) (b : List α) (hb : b ∈ chunksOf1000 l) :
    b ≠ [] ∧ b.length ≤ 1000 := by
  induction l using chunksOf1000.induct with
  | case1 => simp [chunksOf1000] at hb
  | case2 a as ih =>
    rw [chunksOf1000] at hb
    rcases List.mem_cons.mp hb with hb | hb
    · subst hb
      exact ⟨by simp, by simp⟩
    · exact ih hb

theorem deleteBatches_ok (del : List Str → Bool) (bs : List (List Str))
    (h : ∀ b ∈ bs, del b = true) :
    deleteBatches del bs = (.ok (bs.map List.length).sum, bs) := by
  induction bs with
  | nil => rfl
  | cons b rest ih =>
    have hb : del b = true := h b (by simp)
    simp only [deleteBatches, hb, if_pos rfl,
      ih (fun x hx => h x (List.mem_cons_of_mem _ hx))]
    simp [Except.map]

theorem deleteBatches_trace_take (del : List Str → Bool) (bs : List (List Str)) :
    ∃ k, (deleteBatches del bs).2 = bs.take k := by
  induction bs with
  | nil => exact ⟨0, rfl⟩
  | cons b rest ih =>
    by_cases hb : del b = true
    · obtain ⟨k, hk⟩ := ih
      refine ⟨k + 1, ?_⟩
      simp [deleteBatches, hb, hk]
    · refine ⟨1, ?_⟩
      simp [deleteBatches, hb]

theorem deleteBatches_err (del : List Str → Bool) (bs : List (List Str))
    (h : ∃ b ∈ bs, del b = false) :
    (deleteBatches del bs).1 = .error .batchDeleteFailed := by
  induction bs with
  | nil => simp at h
  | cons b rest ih =>
    by_cases hb : del b = true
    · obtain ⟨x, hx, hxf⟩ := h
      rcases List.mem_cons.mp hx with rfl | hx
      · rw [hb] at hxf; cases hxf
      · simp only [deleteBatches, hb, if_pos rfl]
        have h3 := ih ⟨x, hx, hxf⟩
        show Except.map _ (deleteBatches del rest).1 = _
        rw [h3]
        rfl
    · simp [deleteBatches, hb]

theorem deleteBatches_ok_inv (del : List Str → Bool) (bs : List (List Str))
    (c : Nat) (tr : List (List Str)) (h : deleteBatches del bs = (.ok c, tr)) :
    tr = bs ∧ c = (bs.map List.length).sum := by
  by_cases hall : ∀ b ∈ bs, del b = true
  · rw [deleteBatches_ok del bs hall] at h
    have h1 := congrArg Prod.fst h
    have h2 := congrArg Prod.snd h
    simp only at h1 h2
    exact ⟨h2.symm, (Except.ok.inj h1).symm⟩
  · exfalso
    push_neg at hall
    obtain ⟨b, hb, hbf⟩ := hall
    have herr := deleteBatches_err del bs ⟨b, hb, by simpa using hbf⟩
    rw [h] at herr
    cases herr

theorem chunksOf1000_sum_length {α : Type} (l : List α) :
    ((chunksOf1000 l).map List.length).sum = l.length := by
  rw [← List.length_flatten, chunksOf1000_flatten]

/-- C2: for every listing and cutoff, dry-run `DeleteOldFiles` issues no
delete calls and returns `deletedCount = 0` with `deletedFiles` exactly the
keys of the objects last-modified strictly before the cutoff; a non-dry-run
over the same listing (all bulk-delete calls succeeding) returns the same
`deletedFiles` with `deletedCount = len(deletedFiles)`. -/
theorem deleteOldFiles_dryRun_spec (lister : Str → List S3Object)
    (del : List Str → Bool) (bucketName folder : Str) (daysOld cutoffDate : Int) :
    (DeleteOldFiles lister del bucketName folder daysOld cutoffDate true =
      (.ok { bucketName := bucketName, folder := folder, daysOld := daysOld,
             deletedFiles := (deleteCandidates lister folder cutoffDate).map S3Object.key,
             deletedCount := 0,
             totalSizeBytes := ((deleteCandidates lister folder cutoffDate).map S3Object.size).sum,
             cutoffDate := cutoffDate }, [])) ∧
    ((∀ b, del b = true) →
      DeleteOldFiles lister del bucketName folder daysOld cutoffDate false =
        (.ok { bucketName := bucketName, folder := folder, daysOld := daysOld,
               deletedFiles := (deleteCandidates lister folder cutoffDate).map S3Object.key,
               deletedCount := ((deleteCandidates lister folder cutoffDate).map S3Object.key).length,
               totalSizeBytes := ((deleteCandidates lister folder cutoffDate).map S3Object.size).sum,
               cutoffDate := cutoffDate },
         chunksOf1000 ((deleteCandidates lister folder cutoffDate).map S3Object.key))) := by
  constructor
  · rfl
  · intro h
    simp only [DeleteOldFiles]
    rw [deleteBatches_ok del _ (fun b _ => h b), chunksOf1000_sum_length]
    rfl

theorem deleteOldFiles_dryRun_spec_witness :
    let lister : Str → List S3Object := fun _ => [⟨['o'], 5, 7⟩, ⟨['n'], 20, 1⟩]
    let del : List Str → Bool := fun _ => true
    (DeleteOldFiles lister del ['b'] ['f'] 3 10 true =
      (.ok { bucketName := ['b'], folder := ['f'], daysOld := 3,
             deletedFiles := (deleteCandidates lister ['f'] 10).map S3Object.key,
             deletedCount := 0,
             totalSizeBytes := ((deleteCandidates lister ['f'] 10).map S3Object.size).sum,
             cutoffDate := 10 }, [])) ∧
    DeleteOldFiles lister del ['b'] ['f'] 3 10 false =
      (.ok { bucketName := ['b'], folder := ['f'], daysOld := 3,
             deletedFiles := (deleteCandidates lister ['f'] 10).map S3Object.key,
             deletedCount := ((deleteCandidates lister ['f'] 10).map S3Object.key).length,
             totalSizeBytes := ((deleteCandidates lister ['f'] 10).map S3Object.size).sum,
             cutoffDate := 10 },
       chunksOf1000 ((deleteCandidates lister ['f'] 10).map S3Object.key)) := by
  have h := deleteOldFiles_dryRun_spec (fun _ => [⟨['o'], 5, 7⟩, ⟨['n'], 20, 1⟩])
    (fun _ => true) ['b'] ['f'] 3 10
  exact ⟨h.1, h.2 (fun _ => rfl)⟩

/-- C3: in a real (non-dry) run, candidates are deleted in discovery order in
sequential batches of at most 1000 keys, one bulk-delete call per batch
(the issued calls are a prefix of the batch list, all of it on success);
`deletedCount` accumulates only over succeeded batches, and if any batch call
fails the operation returns an error and no `DeleteResult`. -/
theorem deleteOldFiles_batch_spec (lister : Str → List S3Object)
    (del : List Str → Bool) (bucketName folder : Str) (daysOld cutoffDate : Int) :
    (∃ k, (DeleteOldFiles lister del bucketName folder daysOld cutoffDate false).2 =
      (chunksOf1000 ((deleteCandidates lister folder cutoffDate).map S3Object.key)).take k) ∧
    (∀ b ∈ (DeleteOldFiles lister del bucketName folder daysOld cutoffDate false).2,
      b ≠ [] ∧ b.length ≤ 1000) ∧
    (chunksOf1000 ((deleteCandidates lister folder cutoffDate).map S3Object.key)).flatten =
      (deleteCandidates lister folder cutoffDate).map S3Object.key ∧
    (∀ res, (DeleteOldFiles lister del bucketName folder daysOld cutoffDate false).1 = .ok res →
      (DeleteOldFiles lister del bucketName folder daysOld cutoffDate false).2 =
        chunksOf1000 ((deleteCandidates lister folder cutoffDate).map S3Object.key) ∧
      res.deletedCount = ((deleteCandidates lister folder cutoffDate).map S3Object.key).length ∧
      res.deletedFiles = (deleteCandidates lister folder cutoffDate).map S3Object.key) ∧
    ((∃ b ∈ chunksOf1000 ((deleteCandidates lister folder cutoffDate).map S3Object.key),
        del b = false) →
      (DeleteOldFiles lister del bucketName folder daysOld cutoffDate false).1 =
        .error .batchDeleteFailed) := by
  refine ⟨?_, ?_, chunksOf1000_flatten _, ?_, ?_⟩
  · exact deleteBatches_trace_take del _
  · intro b hb
    obtain ⟨k, hk⟩ := deleteBatches_trace_take del
      (chunksOf1000 ((deleteCandidates lister folder cutoffDate).map S3Object.key))
    have hb2 : b ∈ chunksOf1000 ((deleteCandidates lister folder cutoffDate).map S3Object.key) := by
      have : (DeleteOldFiles lister del bucketName folder daysOld cutoffDate false).2 =
          (deleteBatches del (chunksOf1000 ((deleteCandidates lister folder cutoffDate).map S3Object.key))).2 := rfl
      rw [this, hk] at hb
      exact List.take_subset k _ hb
    exact chunksOf1000_mem _ b hb2
  · intro res hres
    have hfst : (DeleteOldFiles lister del bucketName folder daysOld cutoffDate false).1 =
        (deleteBatches del (chunksOf1000 ((deleteCandidates lister folder cutoffDate).map S3Object.key))).1.map _ := rfl
    rw [hfst] at hres
    cases hdb : (deleteBatches del (chunksOf1000 ((deleteCandidates lister folder cutoffDate).map S3Object.key))).1 with
    | error e => rw [hdb] at hres; cases hres
    | ok c =>
      rw [hdb] at hres
      obtain ⟨htr, hc⟩ := deleteBatches_ok_inv del _ c _ (Prod.ext hdb rfl)
      have hres2 := Except.ok.inj hres
      refine ⟨htr, ?_, ?_⟩
      · rw [← hres2]
        simpa [chunksOf1000_sum_length] using hc
      · rw [← hres2]
  · intro hex
    have hfst : (DeleteOldFiles lister del bucketName folder daysOld cutoffDate false).1 =
        (deleteBatches del (chunksOf1000 ((deleteCandidates lister folder cutoffDate).map S3Object.key))).1.map _ := rfl
    rw [hfst, deleteBatches_err del _ hex]
    rfl

theorem deleteOldFiles_batch_spec_witness :
    (DeleteOldFiles (fun _ => [⟨['o'], 5, 7⟩]) (fun _ => false) ['b'] ['f'] 3 10 false).1 =
      .error .batchDeleteFailed := by
  have hcand : (deleteCandidates (fun _ => [⟨['o'], 5, 7⟩]) ['f'] 10).map S3Object.key
      = [['o']] := by decide
  have hch : chunksOf1000 ([['o']] : List (List Char)) = [[['o']]] := by
    rw [chunksOf1000, List.take_of_length_le (by simp),
      List.drop_eq_nil_of_le (by simp), chunksOf1000]
  apply (deleteOldFiles_batch_spec (fun _ => [⟨['o'], 5, 7⟩])
    (fun _ => false) ['b'] ['f'] 3 10).2.2.2.2
  rw [hcand, hch]
  exact ⟨[['o']], by simp, rfl⟩

/-! ## The Go standard-library glob matcher `path/filepath.Match`

`shouldExclude` in `pkg/utils` delegates to `filepath.Match` and drops its
error (`matched, err := filepath.Match(pattern, filename); if err == nil &&
matched`).  The matcher is embedded below function-for-function from the Go
standard library source (`scanChunk`, `getEsc`, `matchChunk` with its
`failed` flag that keeps parsing the chunk for syntax errors after the match
has failed, the trailing-star fast path, the star backtracking loop, and the
final validation of the remaining pattern).  `Except.error ()` stands for
`ErrBadPattern`. -/

def scanChunkAux (inr : Bool) : Str → Str × Str
  | [] => ([], [])
  | c :: p =>
    if c = '\\' then
      match p with
      | [] => (['\\'], [])
      | d :: p' =>
        let r := scanChunkAux inr p'
        ('\\' :: d :: r.1, r.2)
    else if c = '[' then
      let r := scanChunkAux true p
      (c :: r.1, r.2)
    else if c = ']' then
      let r := scanChunkAux false p
      (c :: r.1, r.2)
    else if c = '*' && !inr then
      ([], c :: p)
    else
      let r := scanChunkAux inr p
      (c :: r.1, r.2)

def scanChunk (pattern : Str) : Bool × Str × Str :=
  let star := decide (pattern.head? = some '*')
  let p := pattern.dropWhile (· = '*')
  let r := scanChunkAux false p
  (star, r.1, r.2)

def getEsc : Str → Except Unit (Char × Str)
  | [] => .error ()
  | c :: p =>
    if c = '-' || c = ']' then .error ()
    else if c = '\\' then
      match p with
      | [] => .error ()
      | d :: p' => if p' = [] then .error () else .ok (d, p')
    else if p = [] then .error () else .ok (c, p)

theorem getEsc_length : ∀ {c : Str} {r : Char} {rest : Str},
    getEsc c = .ok (r, rest) → rest.length < c.length
  | [], r, rest, h => by simp [getEsc] at h
  | c :: p, r, rest, h => by
    simp only [getEsc] at h
    split at h
    · cases h
    · split at h
      · cases p with
        | nil => simp at h
        | cons d p' =>
          dsimp only at h
          by_cases hp : p' = []
          · rw [if_pos hp] at h; cases h
          · rw [if_neg hp] at h
            cases h
            simp
            omega
      · by_cases hp : p = []
        · rw [if_pos hp] at h; cases h
        · rw [if_neg hp] at h
          cases h
          simp

def matchRanges (r : Char) (chunk : Str) (matched : Bool) (nrange : Nat) :
    Except Unit (Bool × Str) :=
  if chunk.head? = some ']' ∧ nrange > 0 then .ok (matched, chunk.tail)
  else
    match h1 : getEsc chunk with
    | .error _ => .error ()
    | .ok (lo, ch1) =>
      if ch1.head? = some '-' then
        match h3 : getEsc ch1.tail with
        | .error _ => .error ()
        | .ok (hi, ch3) =>
          matchRanges r ch3 (matched || (decide (lo ≤ r) && decide (r ≤ hi))) (nrange + 1)
      else
        matchRanges r ch1 (matched || (decide (lo ≤ r) && decide (r ≤ lo))) (nrange + 1)
termination_by chunk.length
decreasing_by
  · have ha := getEsc_length h1
    have hb := getEsc_length h3
    have hc : ch1.tail.length = ch1.length - 1 := List.length_tail _
    omega
  · have ha := getEsc_length h1
    omega


theorem matchRanges_length {r : Char} {chunk : Str} {matched : Bool} {nrange : Nat}
    {mm : Bool} {out : Str} (h : matchRanges r chunk matched nrange = .ok (mm, out)) :
    out.length ≤ chunk.length := by
  induction chunk, matched, nrange using matchRanges.induct r with
  | case1 chunk matched nrange hg =>
    rw [matchRanges, if_pos hg] at h
    cases h
    simp [List.length_tail]
  | case2 chunk matched nrange hg a h1 =>
    rw [matchRanges, if_neg hg, h1] at h
    cases h
  | case3 chunk matched nrange hg lo ch1 h1 hh a h3 =>
    rw [matchRanges, if_neg hg, h1] at h
    dsimp only at h
    rw [if_pos hh, h3] at h
    cases h
  | case4 chunk matched nrange hg lo ch1 h1 hh hi ch3 h3 ih =>
    rw [matchRanges, if_neg hg, h1] at h
    dsimp only at h
    rw [if_pos hh, h3] at h
    have hrec := ih h
    have ha := getEsc_length h1
    have hb := getEsc_length h3
    have hc : ch1.tail.length = ch1.length - 1 := List.length_tail _
    omega
  | case5 chunk matched nrange hg lo ch1 h1 hh ih =>
    rw [matchRanges, if_neg hg, h1] at h
    dsimp only at h
    rw [if_neg hh] at h
    have hrec := ih h
    have ha := getEsc_length h1
    omega


def matchChunk (chunk s : Str) (failed : Bool) : Except Unit (Bool × Str) :=
  match chunk with
  | [] => if failed then .ok (false, []) else .ok (true, s)
  | c :: ch =>
    let failed1 := failed || s.isEmpty
    if c = '[' then
      let r := s.headD (Char.ofNat 0)
      let s1 := if failed1 then s else s.tail
      let neg := decide (ch.head? = some '^')
      let ch1 := if ch.head? = some '^' then ch.tail else ch
      match hmr : matchRanges r ch1 false 0 with
      | .error _ => .error ()
      | .ok (m, ch2) => matchChunk ch2 s1 (failed1 || (m == neg))
    else if c = '?' then
      if failed1 then matchChunk ch s failed1
      else matchChunk ch s.tail (decide (s.headD (Char.ofNat 0) = '/'))
    else if c = '\\' then
      match ch with
      | [] => .error ()
      | d :: ch' =>
        if failed1 then matchChunk ch' s true
        else matchChunk ch' s.tail (decide (¬ s.headD (Char.ofNat 0) = d))
    else
      if failed1 then matchChunk ch s true
      else matchChunk ch s.tail (decide (¬ s.headD (Char.ofNat 0) = c))
termination_by chunk.length
decreasing_by
  · have h2 := matchRanges_length hmr
    unfold ch1 at h2
    simp only [List.length_cons]
    split at h2
    · rw [List.length_tail] at h2; omega
    · omega
  all_goals (simp only [List.length_cons]; omega)

inductive StarResult where
  | found (rest : Str)
  | bad
  | noneFound
deriving DecidableEq

def tryStar (chunk : Str) (patEmpty : Bool) : Str → StarResult
  | [] => .noneFound
  | c :: n' =>
    if c = '/' then .noneFound
    else
      match matchChunk chunk n' false with
      | .error _ => .bad
      | .ok (ok1, t) =>
        if ok1 then
          if patEmpty && !t.isEmpty then tryStar chunk patEmpty n'
          else .found t
        else tryStar chunk patEmpty n'

theorem scanChunkAux_append (inr : Bool) (q : Str) :
    (scanChunkAux inr q).1 ++ (scanChunkAux inr q).2 = q := by
  induction inr, q using scanChunkAux.induct with
  | case1 inr => rfl
  | case2 inr => rfl
  | case3 inr d p' ih =>
    rw [scanChunkAux.eq_def]
    dsimp only
    simpa using ih
  | case4 inr p h ih =>
    rw [scanChunkAux.eq_def]
    dsimp only
    rw [if_neg (by decide : ¬ ('[' : Char) = '\\'), if_pos rfl]
    simpa using ih
  | case5 inr p h h2 ih =>
    rw [scanChunkAux.eq_def]
    dsimp only
    rw [if_neg (by decide : ¬ (']' : Char) = '\\'),
      if_neg (by decide : ¬ (']' : Char) = '['), if_pos rfl]
    simpa using ih
  | case6 inr c p h1 h2 h3 hs =>
    rw [scanChunkAux.eq_def]
    dsimp only
    rw [if_neg h1, if_neg h2, if_neg h3, if_pos hs]
    rfl
  | case7 inr c p h1 h2 h3 h4 ih =>
    rw [scanChunkAux.eq_def]
    dsimp only
    rw [if_neg h1, if_neg h2, if_neg h3, if_neg h4]
    simpa using ih


theorem matchRanges_eq (r : Char) (chunk : Str) (matched : Bool) (nrange : Nat) :
    matchRanges r chunk matched nrange =
      if chunk.head? = some ']' ∧ nrange > 0 then .ok (matched, chunk.tail)
      else
        match getEsc chunk with
        | .error _ => .error ()
        | .ok (lo, ch1) =>
          if ch1.head? = some '-' then
            match getEsc ch1.tail with
            | .error _ => .error ()
            | .ok (hi, ch3) =>
              matchRanges r ch3 (matched || (decide (lo ≤ r) && decide (r ≤ hi))) (nrange + 1)
          else
            matchRanges r ch1 (matched || (decide (lo ≤ r) && decide (r ≤ lo))) (nrange + 1) := by
  rw [matchRanges.eq_def]
  split
  · rfl
  · split <;> rename_i heq
    · rw [heq]
    · rw [heq]
      dsimp only
      split
      · split <;> rename_i heq2 <;> rw [heq2]
      · rfl

theorem matchChunk_bracket (ch s : Str) (failed : Bool) :
    matchChunk ('[' :: ch) s failed =
      match matchRanges (s.headD (Char.ofNat 0))
          (if ch.head? = some '^' then ch.tail else ch) false 0 with
      | .error _ => .error ()
      | .ok (m, ch2) =>
        matchChunk ch2 (if (failed || s.isEmpty) then s else s.tail)
          ((failed || s.isEmpty) || (m == decide (ch.head? = some '^'))) := by
  rw [matchChunk.eq_def]
  dsimp only
  rw [if_pos rfl]
  split <;> rename_i heq <;> rw [heq]

theorem matchChunk_eval (chunk s : Str) (failed : Bool) :
    matchChunk chunk s failed =
      match chunk with
      | [] => if failed then .ok (false, []) else .ok (true, s)
      | c :: ch =>
        if c = '[' then
          match matchRanges (s.headD (Char.ofNat 0))
              (if ch.head? = some '^' then ch.tail else ch) false 0 with
          | .error _ => .error ()
          | .ok (m, ch2) =>
            matchChunk ch2 (if (failed || s.isEmpty) then s else s.tail)
              ((failed || s.isEmpty) || (m == decide (ch.head? = some '^')))
        else if c = '?' then
          if (failed || s.isEmpty) then matchChunk ch s (failed || s.isEmpty)
          else matchChunk ch s.tail (decide (s.headD (Char.ofNat 0) = '/'))
        else if c = '\\' then
          match ch with
          | [] => .error ()
          | d :: ch' =>
            if (failed || s.isEmpty) then matchChunk ch' s true
            else matchChunk ch' s.tail (decide (¬ s.headD (Char.ofNat 0) = d))
        else
          if (failed || s.isEmpty) then matchChunk ch s true
          else matchChunk ch s.tail (decide (¬ s.headD (Char.ofNat 0) = c)) := by
  match chunk with
  | [] => rw [matchChunk.eq_def]
  | c :: ch =>
    by_cases hc : c = '['
    · subst hc
      rw [matchChunk_bracket]
      dsimp only
      rw [if_pos rfl]
    · rw [matchChunk.eq_def]
      dsimp only
      rw [if_neg hc, if_neg hc]

theorem length_dropWhile_le {α : Type} (p : α → Bool) :
    ∀ l : List α, (l.dropWhile p).length ≤ l.length
  | [] => Nat.le_refl _
  | a :: l => by
    rw [List.dropWhile_cons]
    split
    · exact Nat.le_succ_of_le (length_dropWhile_le p l)
    · exact Nat.le_refl _

theorem scanChunkAux_ne_nil (q : Str) (hq : q ≠ []) (hh : q.head? ≠ some '*') :
    (scanChunkAux false q).1 ≠ [] := by
  match q with
  | c :: p =>
    have hc : c ≠ '*' := by
      intro h; exact hh (by simp [h])
    rw [scanChunkAux.eq_def]
    dsimp only
    by_cases h1 : c = '\\'
    · subst h1
      match p with
      | [] => simp
      | d :: p' => simp
    · rw [if_neg h1]
      by_cases h2 : c = '['
      · rw [if_pos h2]; simp
      · rw [if_neg h2]
        by_cases h3 : c = ']'
        · rw [if_pos h3]; simp
        · rw [if_neg h3]
          rw [if_neg (by simp [hc])]
          simp

theorem scanChunk_length (p : Str) (hp : p ≠ []) :
    (scanChunk p).2.2.length < p.length := by
  match p with
  | c :: p0 =>
    simp only [scanChunk]
    by_cases hc : c = '*'
    · subst hc
      have hdw : ('*' :: p0).dropWhile (· = '*') = p0.dropWhile (· = '*') := by
        simp [List.dropWhile_cons]
      rw [hdw]
      have happ := scanChunkAux_append false (p0.dropWhile (· = '*'))
      have hlen : (scanChunkAux false (p0.dropWhile (· = '*'))).2.length ≤
          (p0.dropWhile (· = '*')).length := by
        conv_rhs => rw [← happ]
        simp
      have hdrop : (p0.dropWhile (· = '*')).length ≤ p0.length :=
        length_dropWhile_le (· = '*') p0
      simp only [List.length_cons]
      omega
    · have hdw : (c :: p0).dropWhile (· = '*') = c :: p0 := by
        simp [List.dropWhile_cons, hc]
      rw [hdw]
      have happ := scanChunkAux_append false (c :: p0)
      have hne := scanChunkAux_ne_nil (c :: p0) (by simp) (by simp [hc])
      have hlen : (scanChunkAux false (c :: p0)).1.length +
          (scanChunkAux false (c :: p0)).2.length = (c :: p0).length := by
        conv_rhs => rw [← happ]
        simp
      have hpos : 0 < (scanChunkAux false (c :: p0)).1.length :=
        List.length_pos.mpr hne
      omega

def validRest : Str → Bool
  | [] => true
  | c :: p =>
    match matchChunk (scanChunk (c :: p)).2.1 [] false with
    | .error _ => false
    | .ok _ => validRest (scanChunk (c :: p)).2.2
termination_by p => p.length
decreasing_by
  exact scanChunk_length _ (by simp)

def globMatch (pattern name : Str) : Except Unit Bool :=
  match pattern with
  | [] => .ok (decide (name = []))
  | c :: ptail =>
    let star := (scanChunk (c :: ptail)).1
    let chunk := (scanChunk (c :: ptail)).2.1
    let rest := (scanChunk (c :: ptail)).2.2
    if star && chunk.isEmpty then .ok (!(name.contains '/'))
    else
      match matchChunk chunk name false with
      | .error _ => .error ()
      | .ok (ok1, t) =>
        if ok1 && (t.isEmpty || !rest.isEmpty) then globMatch rest t
        else
          match (if star then tryStar chunk rest.isEmpty name else .noneFound) with
          | .found t' => globMatch rest t'
          | .bad => .error ()
          | .noneFound => if validRest rest then .ok false else .error ()
termination_by pattern.length
decreasing_by
  · exact scanChunk_length _ (by simp)
  · exact scanChunk_length _ (by simp)


def globEval (pat name : String) : Except Unit Bool := globMatch pat.data name.data

example : globEval "b.log" "b.log" = .ok true := by
  simp [globEval, globMatch, scanChunk, scanChunkAux, matchChunk_eval, matchRanges_eq, getEsc, tryStar, validRest]

example : globEval "*.log" "b.log" = .ok true := by
  simp [globEval, globMatch, scanChunk, scanChunkAux, matchChunk_eval, matchRanges_eq, getEsc, tryStar, validRest]

example : globEval "*.log" "a.txt" = .ok false := by
  simp [globEval, globMatch, scanChunk, scanChunkAux, matchChunk_eval, matchRanges_eq, getEsc, tryStar, validRest]

example : globEval "[" "x" = .error () := by
  simp [globEval, globMatch, scanChunk, scanChunkAux, matchChunk_eval, matchRanges_eq, getEsc, tryStar, validRest]

example : globEval "a[" "ab" = .error () := by
  simp [globEval, globMatch, scanChunk, scanChunkAux, matchChunk_eval, matchRanges_eq, getEsc, tryStar, validRest]

example : globEval "a[" "zz" = .error () := by
  simp [globEval, globMatch, scanChunk, scanChunkAux, matchChunk_eval, matchRanges_eq, getEsc, tryStar, validRest]

example : globEval "?x" "ax" = .ok true := by
  simp [globEval, globMatch, scanChunk, scanChunkAux, matchChunk_eval, matchRanges_eq, getEsc, tryStar, validRest]

example : globEval "[a-c]x" "bx" = .ok true := by
  simp [globEval, globMatch, scanChunk, scanChunkAux, matchChunk_eval, matchRanges_eq, getEsc, tryStar, validRest]

example : globEval "[^a-c]x" "dx" = .ok true := by
  simp [globEval, globMatch, scanChunk, scanChunkAux, matchChunk_eval, matchRanges_eq, getEsc, tryStar, validRest]

example : globEval "ab[" "xy" = .error () := by
  simp [globEval, globMatch, scanChunk, scanChunkAux, matchChunk_eval, matchRanges_eq, getEsc, tryStar, validRest]

example : globEval "a*b" "axxb" = .ok true := by
  simp [globEval, globMatch, scanChunk, scanChunkAux, matchChunk_eval, matchRanges_eq, getEsc, tryStar, validRest]

example : globEval "a*" "abc" = .ok true := by
  simp [globEval, globMatch, scanChunk, scanChunkAux, matchChunk_eval, matchRanges_eq, getEsc, tryStar, validRest]


/-- A bad class chunk is detected independently of the character being
matched and of the accumulated flags: two `matchRanges` runs over the same
chunk fail together, and on success leave the same remainder. -/
theorem matchRanges_shape (r : Char) (chunk : Str) (matched : Bool) (nrange : Nat) :
    ∀ r' matched',
      (matchRanges r chunk matched nrange = .error () ↔
        matchRanges r' chunk matched' nrange = .error ()) ∧
      (∀ a out, matchRanges r chunk matched nrange = .ok (a, out) →
        ∃ a', matchRanges r' chunk matched' nrange = .ok (a', out)) := by
  induction chunk, matched, nrange using matchRanges.induct r with
  | case1 chunk matched nrange hg =>
    intro r' matched'
    rw [matchRanges_eq, matchRanges_eq, if_pos hg, if_pos hg]
    refine ⟨by simp, ?_⟩
    intro a out h
    cases h
    exact ⟨matched', rfl⟩
  | case2 chunk matched nrange hg a h1 =>
    intro r' matched'
    rw [matchRanges_eq, matchRanges_eq, if_neg hg, if_neg hg, h1]
    simp
  | case3 chunk matched nrange hg lo ch1 h1 hh a h3 =>
    intro r' matched'
    rw [matchRanges_eq, matchRanges_eq, if_neg hg, if_neg hg, h1]
    dsimp only
    rw [if_pos hh, if_pos hh, h3]
    simp
  | case4 chunk matched nrange hg lo ch1 h1 hh hi ch3 h3 ih =>
    intro r' matched'
    rw [matchRanges_eq, matchRanges_eq, if_neg hg, if_neg hg, h1]
    dsimp only
    rw [if_pos hh, if_pos hh, h3]
    exact ih r' _
  | case5 chunk matched nrange hg lo ch1 h1 hh ih =>
    intro r' matched'
    rw [matchRanges_eq, matchRanges_eq, if_neg hg, if_neg hg, h1]
    dsimp only
    rw [if_neg hh, if_neg hh]
    exact ih r' _


theorem matchChunk_nil (s : Str) (failed : Bool) :
    matchChunk [] s failed = if failed then .ok (false, []) else .ok (true, s) := by
  rw [matchChunk_eval]

theorem matchChunk_qmark (p s : Str) (failed : Bool) :
    matchChunk ('?' :: p) s failed =
      if (failed || s.isEmpty) then matchChunk p s (failed || s.isEmpty)
      else matchChunk p s.tail (decide (s.headD (Char.ofNat 0) = '/')) := by
  rw [matchChunk_eval]
  simp

theorem matchChunk_esc (ch s : Str) (failed : Bool) :
    matchChunk ('\\' :: ch) s failed =
      match ch with
      | [] => .error ()
      | d :: ch' =>
        if (failed || s.isEmpty) then matchChunk ch' s true
        else matchChunk ch' s.tail (decide (¬ s.headD (Char.ofNat 0) = d)) := by
  rw [matchChunk_eval]
  simp
  rfl

theorem matchChunk_default (c : Char) (p s : Str) (failed : Bool)
    (h1 : c ≠ '[') (h2 : c ≠ '?') (h3 : c ≠ '\\') :
    matchChunk (c :: p) s failed =
      if (failed || s.isEmpty) then matchChunk p s true
      else matchChunk p s.tail (decide (¬ s.headD (Char.ofNat 0) = c)) := by
  rw [matchChunk_eval]
  simp [h1, h2, h3]


/-- Whether `matchChunk` reports `ErrBadPattern` depends only on the chunk,
never on the string being matched or the accumulated `failed` flag: the Go
loop keeps parsing the chunk for syntax errors after the match has failed. -/
theorem matchChunk_err_indep :
    ∀ (n : Nat) (chunk : Str), chunk.length ≤ n → ∀ (s : Str) (f : Bool) (s' : Str) (f' : Bool),
      (matchChunk chunk s f = .error () ↔ matchChunk chunk s' f' = .error ()) := by
  intro n
  induction n with
  | zero =>
    intro chunk hc s f s' f'
    have hnil : chunk = [] := List.length_eq_zero.mp (Nat.le_zero.mp hc)
    subst hnil
    rw [matchChunk_nil, matchChunk_nil]
    constructor <;> intro h <;> (split at h <;> cases h)
  | succ n ih =>
    intro chunk hc s f s' f'
    match chunk with
    | [] =>
      rw [matchChunk_nil, matchChunk_nil]
      constructor <;> intro h <;> (split at h <;> cases h)
    | c :: ch =>
      have hlen : ch.length ≤ n := by simp at hc; omega
      by_cases hb : c = '['
      · subst hb
        rw [matchChunk_bracket, matchChunk_bracket]
        cases hmr : matchRanges (s.headD (Char.ofNat 0))
            (if ch.head? = some '^' then ch.tail else ch) false 0 with
        | error u =>
          cases u
          have h2 : matchRanges (s'.headD (Char.ofNat 0))
              (if ch.head? = some '^' then ch.tail else ch) false 0 = .error () :=
            (matchRanges_shape _ _ false 0 _ false).1.mp hmr
          rw [h2]
        | ok p =>
          rcases p with ⟨m, ch2⟩
          obtain ⟨m', h2⟩ := (matchRanges_shape _ _ false 0
            (s'.headD (Char.ofNat 0)) false).2 m ch2 hmr
          rw [h2]
          have hch2 : ch2.length ≤ n := by
            have hr := matchRanges_length hmr
            have ht : (if ch.head? = some '^' then ch.tail else ch).length ≤ ch.length := by
              split
              · rw [List.length_tail]; omega
              · exact Nat.le_refl _
            omega
          constructor <;> intro h <;> exact (ih ch2 hch2 _ _ _ _).mp h
      · by_cases hq : c = '?'
        · subst hq
          rw [matchChunk_qmark, matchChunk_qmark]
          constructor <;> intro h <;>
            (split at h <;> split <;> exact (ih ch hlen _ _ _ _).mp h)
        · by_cases he : c = '\\'
          · subst he
            rw [matchChunk_esc, matchChunk_esc]
            cases ch with
            | nil => simp
            | cons d ch' =>
              have hlen' : ch'.length ≤ n := by simp at hc; omega
              dsimp only
              constructor <;> intro h <;>
                (split at h <;> split <;> exact (ih ch' hlen' _ _ _ _).mp h)
          · rw [matchChunk_default c ch s f hb hq he,
              matchChunk_default c ch s' f' hb hq he]
            constructor <;> intro h <;>
              (split at h <;> split <;> exact (ih ch hlen _ _ _ _).mp h)


theorem tryStar_not_bad (chunk : Str) (patEmpty : Bool) (name : Str)
    (hok : matchChunk chunk [] false ≠ .error ()) :
    tryStar chunk patEmpty name ≠ .bad := by
  induction name with
  | nil => simp [tryStar]
  | cons c n' ih =>
    simp only [tryStar]
    by_cases hc : c = '/'
    · simp [hc]
    · rw [if_neg hc]
      cases hmc : matchChunk chunk n' false with
      | error u =>
        cases u
        exact absurd ((matchChunk_err_indep chunk.length chunk (Nat.le_refl _) _ _ _ _).mp hmc) hok
      | ok p =>
        rcases p with ⟨ok1, t⟩
        dsimp only
        split
        · split
          · exact ih
          · simp
        · exact ih

theorem validRest_cons (c : Char) (p : Str) :
    validRest (c :: p) =
      (match matchChunk (scanChunk (c :: p)).2.1 [] false with
       | .error _ => false
       | .ok _ => validRest (scanChunk (c :: p)).2.2) := by
  rw [validRest]

theorem head?_dropWhile_star (l : Str) :
    ∀ c, (l.dropWhile (· = '*')).head? = some c → c ≠ '*' := by
  induction l with
  | nil => intro c h; cases h
  | cons a l ih =>
    intro c h
    rw [List.dropWhile_cons] at h
    split at h
    · exact ih c h
    · rename_i ha
      simp only [List.head?_cons, Option.some.injEq] at h
      subst h
      simpa using ha

theorem scanChunk_chunk_nil (p : Str) (h : (scanChunk p).2.1 = []) :
    (scanChunk p).2.2 = [] := by
  have hq : p.dropWhile (· = '*') = [] := by
    by_contra hne
    have hh : (p.dropWhile (· = '*')).head? ≠ some '*' := by
      intro hh
      exact (head?_dropWhile_star p '*' hh) rfl
    exact scanChunkAux_ne_nil _ hne hh h
  show (scanChunkAux false (p.dropWhile (· = '*'))).2 = []
  rw [hq]
  rfl


/-- `filepath.Match` reports `ErrBadPattern` for a given pattern either for
every name or for none: its error behaviour is exactly syntactic
well-formedness of the pattern (the check `validRest` performs). -/
theorem globMatch_err_iff :
    ∀ (n : Nat) (pattern : Str), pattern.length ≤ n → ∀ name,
      (globMatch pattern name = .error ()) ↔ validRest pattern = false := by
  intro n
  induction n with
  | zero =>
    intro pattern hp name
    have hnil : pattern = [] := List.length_eq_zero.mp (Nat.le_zero.mp hp)
    subst hnil
    rw [globMatch]
    simp [validRest]
  | succ n ih =>
    intro pattern hp name
    match pattern with
    | [] =>
      rw [globMatch]
      simp [validRest]
    | c :: ptail =>
      have hrestlen : (scanChunk (c :: ptail)).2.2.length ≤ n := by
        have hsl := scanChunk_length (c :: ptail) (by simp)
        simp only [List.length_cons] at hp hsl ⊢
        omega
      rw [globMatch]
      by_cases hguard : ((scanChunk (c :: ptail)).1 && (scanChunk (c :: ptail)).2.1.isEmpty) = true
      · rw [if_pos hguard]
        have hch : (scanChunk (c :: ptail)).2.1 = [] := by
          have hg2 : (scanChunk (c :: ptail)).2.1.isEmpty = true := by
            rw [Bool.and_eq_true] at hguard
            exact hguard.2
          simpa [List.isEmpty_iff] using hg2
        have hrest := scanChunk_chunk_nil _ hch
        rw [validRest_cons, hch, hrest, matchChunk_nil]
        simp [validRest]
      · rw [if_neg hguard]
        cases hmc : matchChunk (scanChunk (c :: ptail)).2.1 name false with
        | error u =>
          cases u
          have h0 : matchChunk (scanChunk (c :: ptail)).2.1 [] false = .error () :=
            (matchChunk_err_indep _ _ (Nat.le_refl _) _ _ _ _).mp hmc
          rw [validRest_cons, h0]
          simp
        | ok pr =>
          rcases pr with ⟨ok1, t⟩
          have h0 : matchChunk (scanChunk (c :: ptail)).2.1 [] false ≠ .error () := by
            intro hcontra
            have hcc := (matchChunk_err_indep _ _ (Nat.le_refl _) [] false name false).mp hcontra
            rw [hmc] at hcc
            cases hcc
          have hvr : validRest (c :: ptail) = validRest (scanChunk (c :: ptail)).2.2 := by
            rw [validRest_cons]
            cases hw : matchChunk (scanChunk (c :: ptail)).2.1 [] false with
            | error u2 => exact absurd hw h0
            | ok w => rfl
          dsimp only
          split
          · rw [hvr]
            exact ih _ hrestlen t
          · cases hts : (if (scanChunk (c :: ptail)).1 = true then
                tryStar (scanChunk (c :: ptail)).2.1 (scanChunk (c :: ptail)).2.2.isEmpty name
              else StarResult.noneFound) with
            | found t' =>
              rw [hvr]
              exact ih _ hrestlen t'
            | bad =>
              exfalso
              split at hts
              · exact tryStar_not_bad _ _ _ h0 hts
              · cases hts
            | noneFound =>
              rw [hvr]
              by_cases hv : validRest (scanChunk (c :: ptail)).2.2 = true
              · rw [if_pos hv, hv]
                simp
              · rw [if_neg hv]
                simp only [Bool.not_eq_true] at hv
                rw [hv]
                simp


/-! ## Local filesystem model, `shouldExclude`, and `CreateArchive` -/

/-- A local filesystem entry: a named file with its on-disk size, or a named
directory with its children (in directory-listing order). -/
inductive FsEntry where
  | file (name : Str) (size : Int)
  | dir (name : Str) (children : List FsEntry)

def entryName : FsEntry → Str
  | .file n _ => n
  | .dir n _ => n

def lookup (es : List FsEntry) : Path → Option FsEntry
  | [] => none
  | [n] => es.find? (fun e => entryName e == n)
  | n :: rest =>
    match es.find? (fun e => entryName e == n) with
    | some (.dir _ cs) => lookup cs rest
    | _ => none

mutual
def walkVisits (p : Path) : FsEntry → List (Path × Bool × Int)
  | .file _ sz => [(p, false, sz)]
  | .dir _ cs => (p, true, 0) :: walkVisitsList p cs
def walkVisitsList (p : Path) : List FsEntry → List (Path × Bool × Int)
  | [] => []
  | c :: cs => walkVisits (p ++ [entryName c]) c ++ walkVisitsList p cs
end

mutual
def treeSize : FsEntry → Int
  | .file _ sz => sz
  | .dir _ cs => treeSizeList cs
def treeSizeList : List FsEntry → Int
  | [] => 0
  | c :: cs => treeSize c + treeSizeList cs
end

/-- Sum of the sizes of the non-directory visits, as `getPathSize`'s walk does. -/
def fileSum (l : List (Path × Bool × Int)) : Int :=
  ((l.filter (fun v => !v.2.1)).map (fun v => v.2.2)).sum

theorem walkSum_eq (n : Nat) :
    (∀ e : FsEntry, sizeOf e ≤ n → ∀ p, fileSum (walkVisits p e) = treeSize e) ∧
    (∀ l : List FsEntry, sizeOf l ≤ n → ∀ p, fileSum (walkVisitsList p l) = treeSizeList l) := by
  induction n with
  | zero =>
    constructor
    · intro e he
      exfalso
      cases e <;> simp at he
    · intro l hl
      exfalso
      cases l <;> simp at hl
  | succ n ih =>
    constructor
    · intro e he p
      match e with
      | .file nm sz => simp [walkVisits, treeSize, fileSum]
      | .dir nm cs =>
        have hcs : sizeOf cs ≤ n := by
          simp at he
          omega
        rw [walkVisits, treeSize]
        have := (ih.2) cs hcs p
        simp only [fileSum, List.filter_cons] at this ⊢
        simpa using this
    · intro l hl p
      match l with
      | [] => simp [walkVisitsList, treeSizeList, fileSum]
      | c :: cs =>
        have hc : sizeOf c ≤ n := by
          simp at hl
          omega
        have hcs : sizeOf cs ≤ n := by
          simp at hl
          omega
        rw [walkVisitsList, treeSizeList]
        have h1 := ih.1 c hc (p ++ [entryName c])
        have h2 := ih.2 cs hcs p
        simp only [fileSum, List.filter_append, List.map_append, List.sum_append] at h1 h2 ⊢
        omega

end S3M

namespace S3M

theorem fileSum_walk (e : FsEntry) (p : Path) : fileSum (walkVisits p e) = treeSize e :=
  (walkSum_eq (sizeOf e)).1 e (Nat.le_refl _) p

/-- `shouldExclude` from `pkg/utils`: with no patterns nothing is excluded;
otherwise the entry's base filename is matched against each pattern, and a
pattern counts only when `filepath.Match` returns `(true, nil)` — an error is
silently dropped (`err == nil && matched`). -/
def shouldExclude (path : Path) (excludePatterns : List Str) : Bool :=
  if excludePatterns.isEmpty then false
  else
    excludePatterns.any fun pat =>
      match globMatch pat (baseP path) with
      | .ok true => true
      | _ => false

structure ZipEntry where
  name : Path
  size : Int
deriving DecidableEq

/-- The archive entry name `addToArchive` computes (basePath is always ""):
the base name when the visited path is the source itself, otherwise the path
relative to the source's parent directory. -/
def zipName (srcRoot p : Path) : Path :=
  if p = srcRoot then [baseP p] else p.drop (srcRoot.length - 1)

mutual
def archWalk (ex : Path → Bool) (srcRoot : Path) : Path → FsEntry → List ZipEntry
  | p, .file _ sz => if ex p then [] else [⟨zipName srcRoot p, sz⟩]
  | p, .dir _ cs => if ex p then [] else archWalkList ex srcRoot p cs
def archWalkList (ex : Path → Bool) (srcRoot : Path) : Path → List FsEntry → List ZipEntry
  | _, [] => []
  | p, c :: cs => archWalk ex srcRoot (p ++ [entryName c]) c ++ archWalkList ex srcRoot p cs
end

def ValidatePaths (fs : List FsEntry) : List Path → Except OpError Unit
  | [] => .ok ()
  | p :: rest =>
    if (lookup fs p).isSome then ValidatePaths fs rest else .error (.pathNotFound p)

theorem ValidatePaths_ok_mem (fs : List FsEntry) (ps : List Path)
    (h : ValidatePaths fs ps = .ok ()) : ∀ p ∈ ps, (lookup fs p).isSome := by
  induction ps with
  | nil => simp
  | cons p rest ih =>
    intro q hq
    rw [ValidatePaths] at h
    split at h
    · rcases List.mem_cons.mp hq with rfl | hq2
      · assumption
      · exact ih h q hq2
    · cases h

def getPathSize (fs : List FsEntry) (p : Path) : Except OpError Int :=
  match lookup fs p with
  | none => .error (.statFailed p)
  | some e => .ok (fileSum (walkVisits p e))

def buildArchive (fs : List FsEntry) (ex : Path → Bool) :
    List Path → Except OpError (List ZipEntry × Int)
  | [] => .ok ([], 0)
  | p :: rest =>
    match lookup fs p with
    | none => .error (.archiveAddFailed p)
    | some e =>
      match getPathSize fs p with
      | .error err => .error err
      | .ok sz =>
        match buildArchive fs ex rest with
        | .error err => .error err
        | .ok (es, total) => .ok (archWalk ex p p e ++ es, sz + total)

def includedEntries (fs : List FsEntry) (ex : Path → Bool) (paths : List Path) :
    List ZipEntry :=
  paths.flatMap (fun p =>
    match lookup fs p with
    | some e => archWalk ex p p e
    | none => [])

def treeSizeOf (fs : List FsEntry) (p : Path) : Int :=
  match lookup fs p with
  | some e => treeSize e
  | none => 0

theorem buildArchive_eq (fs : List FsEntry) (ex : Path → Bool) (paths : List Path)
    (h : ∀ p ∈ paths, (lookup fs p).isSome) :
    buildArchive fs ex paths =
      .ok (includedEntries fs ex paths, (paths.map (treeSizeOf fs)).sum) := by
  induction paths with
  | nil => rfl
  | cons p rest ih =>
    have hp : (lookup fs p).isSome := h p (by simp)
    rw [buildArchive]
    cases hl : lookup fs p with
    | none => rw [hl] at hp; cases hp
    | some e =>
      have hgs : getPathSize fs p = .ok (fileSum (walkVisits p e)) := by
        rw [getPathSize, hl]
      rw [hgs, ih (fun q hq => h q (List.mem_cons_of_mem _ hq))]
      simp only [includedEntries, List.flatMap_cons, List.map_cons, List.sum_cons]
      rw [fileSum_walk]
      simp [treeSizeOf, hl, includedEntries]


/-- `models.ArchiveInfo` (`CreatedAt` omitted; `CompressionRatio`, a `float64`
division in Go, is modelled as exact rational division). -/
structure ArchiveInfo where
  archivePath : Str
  originalPaths : List Path
  compressedSize : Int
  originalSize : Int
  compressionRatio : ℚ
deriving DecidableEq

/-- `CreateArchive` from `pkg/utils`: validate the source paths, walk each
source adding non-excluded entries to the zip (`addToArchive`), accumulate
`originalSize` with the walk-based `getPathSize` (which ignores exclusion
patterns), and report the archive file's size on disk.  `zipSize` abstracts
the zip encoder: the size on disk of an archive holding the given entries. -/
def CreateArchive (fs : List FsEntry) (zipSize : List ZipEntry → Int)
    (paths : List Path) (outputPath : Str) (excludePatterns : List Str) :
    Except OpError ArchiveInfo :=
  match ValidatePaths fs paths with
  | .error e => .error e
  | .ok _ =>
    match buildArchive fs (fun q => shouldExclude q excludePatterns) paths with
    | .error e => .error e
    | .ok (entries, originalSize) =>
      .ok { archivePath := outputPath, originalPaths := paths,
            compressedSize := zipSize entries, originalSize := originalSize,
            compressionRatio :=
              if originalSize > 0 then (zipSize entries : ℚ) / (originalSize : ℚ)
              else 0 }

deriving instance DecidableEq for Except

theorem match_arm_decide (q b : Str) :
    (match globMatch q b with | .ok true => true | _ => false) =
      decide (globMatch q b = .ok true) := by
  cases h : globMatch q b with
  | error u => simp
  | ok bb => cases bb <;> simp

/-- C10: during archive creation an entry is excluded based only on whether
some pattern matches its base filename, and a malformed glob pattern — one
`filepath.Match` rejects as invalid — is silently treated as non-matching for
every filename: it never excludes any entry and never changes or fails the
archive operation. -/
theorem shouldExclude_malformed_spec (pat : Str) (n0 : Str)
    (hbad : globMatch pat n0 = .error ()) :
    (∀ path pats, shouldExclude path pats =
        pats.any (fun q => decide (globMatch q (baseP path) = .ok true))) ∧
    (∀ p1 p2 pats, baseP p1 = baseP p2 → shouldExclude p1 pats = shouldExclude p2 pats) ∧
    (∀ path pats, shouldExclude path (pat :: pats) = shouldExclude path pats) ∧
    (∀ fs zipSize paths out pats,
        CreateArchive fs zipSize paths out (pat :: pats) =
          CreateArchive fs zipSize paths out pats) := by
  have hval : validRest pat = false :=
    (globMatch_err_iff pat.length pat (Nat.le_refl _) n0).mp hbad
  have hall : ∀ name, globMatch pat name = .error () := fun name =>
    (globMatch_err_iff pat.length pat (Nat.le_refl _) name).mpr hval
  have hany : ∀ path pats, shouldExclude path pats =
      pats.any (fun q => decide (globMatch q (baseP path) = .ok true)) := by
    intro path pats
    match pats with
    | [] => rfl
    | q :: qs =>
      show (if (q :: qs).isEmpty then false else _) = _
      rw [if_neg (by simp)]
      simp only [match_arm_decide]
  have hdrop : ∀ path pats, shouldExclude path (pat :: pats) = shouldExclude path pats := by
    intro path pats
    rw [hany, hany]
    simp [hall (baseP path)]
  refine ⟨hany, ?_, hdrop, ?_⟩
  · intro p1 p2 pats h
    rw [hany, hany, h]
  · intro fs zipSize paths out pats
    unfold CreateArchive
    have hfun : (fun q => shouldExclude q (pat :: pats)) =
        (fun q => shouldExclude q pats) :=
      funext fun q => hdrop q pats
    rw [hfun]

theorem shouldExclude_malformed_spec_witness :
    globMatch ['['] ['x'] = .error () ∧
      shouldExclude [['f'], ['g']] [['[']] = shouldExclude [['f'], ['g']] [] := by
  have hbad : globMatch ['['] ['x'] = .error () := by
    simp [globMatch, scanChunk, scanChunkAux, matchChunk_eval, matchRanges_eq,
      getEsc, tryStar, validRest]
  exact ⟨hbad, (shouldExclude_malformed_spec ['['] ['x'] hbad).2.2.1 [['f'], ['g']] []⟩

/-- C6 (amended): on success, `originalSize` is the sum of the sizes of ALL
files beneath the source paths — exclusion patterns are NOT applied by
`getPathSize` — while `compressedSize` is the size on disk of the archive
holding exactly the included (non-excluded) entries, and `compressionRatio`
is `compressedSize / originalSize`, `0` when `originalSize` is `0`. -/
theorem CreateArchive_sizes (fs : List FsEntry) (zipSize : List ZipEntry → Int)
    (paths : List Path) (out : Str) (excl : List Str) (info : ArchiveInfo)
    (h : CreateArchive fs zipSize paths out excl = .ok info) :
    info.originalSize = (paths.map (treeSizeOf fs)).sum ∧
    info.compressedSize =
      zipSize (includedEntries fs (fun q => shouldExclude q excl) paths) ∧
    info.compressionRatio = (if 0 < info.originalSize
      then (info.compressedSize : ℚ) / (info.originalSize : ℚ) else 0) ∧
    info.archivePath = out ∧ info.originalPaths = paths := by
  unfold CreateArchive at h
  cases hv : ValidatePaths fs paths with
  | error e => rw [hv] at h; cases h
  | ok u =>
    cases u
    rw [hv, buildArchive_eq fs _ paths (ValidatePaths_ok_mem fs paths hv)] at h
    have h2 := Except.ok.inj h
    subst h2
    exact ⟨rfl, rfl, rfl, rfl, rfl⟩

set_option maxRecDepth 4096 in
/-- C6 counterexample input: a directory holding `a.txt` (3 bytes) and
`b.log` (5 bytes), archived with exclusion pattern `*.log`.  The archive
contains only `a.txt` — the sum of the included (non-excluded) file sizes is
3 — yet `originalSize` is reported as 8, because `getPathSize` walks the
tree without applying the exclusion patterns. -/
theorem CreateArchive_counts_excluded_files :
    CreateArchive
        [.dir ['d'] [.file ['a', '.', 't', 'x', 't'] 3, .file ['b', '.', 'l', 'o', 'g'] 5]]
        (fun _ => 1) [[['d']]] ['o'] [['*', '.', 'l', 'o', 'g']] =
      .ok { archivePath := ['o'], originalPaths := [[['d']]],
            compressedSize := 1, originalSize := 8,
            compressionRatio := (1 : ℚ) / 8 } ∧
    ((includedEntries
        [.dir ['d'] [.file ['a', '.', 't', 'x', 't'] 3, .file ['b', '.', 'l', 'o', 'g'] 5]]
        (fun q => shouldExclude q [['*', '.', 'l', 'o', 'g']])
        [[['d']]]).map ZipEntry.size).sum = 3 ∧
    (8 : Int) ≠ 3 := by
  have g1 : globMatch ['*', '.', 'l', 'o', 'g'] ['d'] = .ok false := by
    simp [globMatch, scanChunk, scanChunkAux, matchChunk_eval, matchRanges_eq,
      getEsc, tryStar, validRest]
  have g2 : globMatch ['*', '.', 'l', 'o', 'g'] ['a', '.', 't', 'x', 't'] = .ok false := by
    simp [globMatch, scanChunk, scanChunkAux, matchChunk_eval, matchRanges_eq,
      getEsc, tryStar, validRest]
  have g3 : globMatch ['*', '.', 'l', 'o', 'g'] ['b', '.', 'l', 'o', 'g'] = .ok true := by
    simp [globMatch, scanChunk, scanChunkAux, matchChunk_eval, matchRanges_eq,
      getEsc, tryStar, validRest]
  have e1 : shouldExclude [['d']] [['*', '.', 'l', 'o', 'g']] = false := by
    simp [shouldExclude, baseP, g1]
  have e2 : shouldExclude [['d'], ['a', '.', 't', 'x', 't']] [['*', '.', 'l', 'o', 'g']] = false := by
    simp [shouldExclude, baseP, g2]
  have e3 : shouldExclude [['d'], ['b', '.', 'l', 'o', 'g']] [['*', '.', 'l', 'o', 'g']] = true := by
    simp [shouldExclude, baseP, g3]
  refine ⟨?_, ?_, by decide⟩ <;>
    norm_num [CreateArchive, ValidatePaths, lookup, buildArchive, getPathSize,
      walkVisits, walkVisitsList, fileSum, archWalk, archWalkList, includedEntries,
      entryName, zipName, e1, e2, e3]

set_option maxRecDepth 8192 in
theorem CreateArchive_sizes_witness :
    (CreateArchive [FsEntry.file ['f'] 4] (fun _ => 2) [[['f']]] ['o'] [] =
      .ok { archivePath := ['o'], originalPaths := [[['f']]], compressedSize := 2,
            originalSize := 4, compressionRatio := (1 : ℚ) / 2 }) ∧
    ({ archivePath := ['o'], originalPaths := [[['f']]], compressedSize := 2,
       originalSize := 4, compressionRatio := (1 : ℚ) / 2 } : ArchiveInfo).originalSize =
      ([[['f']]].map (treeSizeOf [FsEntry.file ['f'] 4])).sum := by
  have heval : CreateArchive [FsEntry.file ['f'] 4] (fun _ => 2) [[['f']]] ['o'] [] =
      .ok { archivePath := ['o'], originalPaths := [[['f']]], compressedSize := 2,
            originalSize := 4, compressionRatio := (1 : ℚ) / 2 } := by
    norm_num [CreateArchive, ValidatePaths, lookup, buildArchive, getPathSize,
      walkVisits, fileSum, archWalk, shouldExclude, entryName, zipName, baseP]
  exact ⟨heval, (CreateArchive_sizes _ _ _ _ _ _ heval).1⟩

/-! ## Archive naming: `GenerateArchiveName` -/

/-- A wall-clock instant as rendered by Go's layout `"20060102_150405"`.
Field values are the in-range ones `time.Now()` produces. -/
structure DateTime where
  year : Nat
  month : Nat
  day : Nat
  hour : Nat
  minute : Nat
  second : Nat
deriving DecidableEq

def digitChar (n : Nat) : Char := Char.ofNat (48 + n % 10)

/-- Two-digit zero-padded rendering (Go layout components `01 02 15 04 05`),
faithful for values below 100. -/
def pad2 (n : Nat) : Str := [digitChar (n / 10), digitChar n]

/-- Four-digit zero-padded rendering (Go layout component `2006`), faithful
for years below 10000. -/
def pad4 (n : Nat) : Str :=
  [digitChar (n / 1000), digitChar (n / 100), digitChar (n / 10), digitChar n]

/-- `time.Now().Format("20060102_150405")`. -/
def goTimestamp (t : DateTime) : Str :=
  pad4 t.year ++ pad2 t.month ++ pad2 t.day ++
    '_' :: (pad2 t.hour ++ pad2 t.minute ++ pad2 t.second)

/-- `filepath.Ext`: the suffix starting at the final dot, `""` if none. -/
def extOf (s : Str) : Str :=
  if s.contains '.' then '.' :: (s.reverse.takeWhile (· ≠ '.')).reverse else []

/-- `GenerateArchiveName` from `pkg/utils`: one source path gives
`<basename-without-extension>_<timestamp><ext>`, anything else gives
`archive_<timestamp><ext>`. -/
def GenerateArchiveName (paths : List Path) (extension : Str) (now : DateTime) : Str :=
  if paths.length = 1 then
    let baseName := baseP (paths.headD [])
    let ext := extOf baseName
    let base2 := if ext ≠ [] then baseName.take (baseName.length - ext.length)
                 else baseName
    base2 ++ '_' :: goTimestamp now ++ extension
  else
    ['a', 'r', 'c', 'h', 'i', 'v', 'e'] ++ '_' :: goTimestamp now ++ extension

theorem digitChar_isDigit (n : Nat) : (digitChar n).isDigit = true := by
  unfold digitChar
  have h : n % 10 < 10 := Nat.mod_lt _ (by omega)
  set k := n % 10 with hk
  interval_cases k <;> decide

/-- C9: with exactly one source path the archive name is
`<basename-without-extension>_<timestamp><ext>`; with two or more it is
`archive_<timestamp><ext>`; the timestamp has the compact sortable form
`YYYYMMDD_HHMMSS` — 8 digits, an underscore, 6 digits, 14 digits in all —
and the two quoted examples produce `report_<ts>.zip` and
`archive_<ts>.zip`. -/
theorem generateArchiveName_spec (paths : List Path) (extension : Str) (now : DateTime)
    (hy : now.year < 10000) (hmo : now.month < 100) (hd : now.day < 100)
    (hh : now.hour < 100) (hmi : now.minute < 100) (hs : now.second < 100) :
    (∀ p, paths = [p] →
      GenerateArchiveName paths extension now =
        (if extOf (baseP p) ≠ [] then
            (baseP p).take ((baseP p).length - (extOf (baseP p)).length)
          else baseP p) ++ '_' :: goTimestamp now ++ extension) ∧
    (2 ≤ paths.length →
      GenerateArchiveName paths extension now =
        ['a', 'r', 'c', 'h', 'i', 'v', 'e'] ++ '_' :: goTimestamp now ++ extension) ∧
    (goTimestamp now).length = 15 ∧
    (goTimestamp now).countP Char.isDigit = 14 ∧
    ((goTimestamp now).take 8).all Char.isDigit = true ∧
    (goTimestamp now).drop 8 = '_' :: (goTimestamp now).drop 9 ∧
    ((goTimestamp now).drop 9).all Char.isDigit = true ∧
    GenerateArchiveName [[['x'], ['r', 'e', 'p', 'o', 'r', 't', '.', 'p', 'd', 'f']]]
        ['.', 'z', 'i', 'p'] now =
      ['r', 'e', 'p', 'o', 'r', 't'] ++ '_' :: goTimestamp now ++ ['.', 'z', 'i', 'p'] ∧
    GenerateArchiveName [[['a']], [['b']]] ['.', 'z', 'i', 'p'] now =
      ['a', 'r', 'c', 'h', 'i', 'v', 'e'] ++ '_' :: goTimestamp now ++ ['.', 'z', 'i', 'p'] := by
  refine ⟨?_, ?_, ?_, ?_, ?_, ?_, ?_, ?_, ?_⟩
  · intro p hp
    subst hp
    simp [GenerateArchiveName]
  · intro h2
    rw [GenerateArchiveName, if_neg (by omega)]
  · simp [goTimestamp, pad4, pad2]
  · simp [goTimestamp, pad4, pad2, List.countP_cons, digitChar_isDigit]
  · simp [goTimestamp, pad4, pad2, digitChar_isDigit]
  · simp [goTimestamp, pad4, pad2]
  · simp [goTimestamp, pad4, pad2, digitChar_isDigit]
  · simp [GenerateArchiveName, baseP, extOf]
  · rw [GenerateArchiveName, if_neg (by simp)]

theorem generateArchiveName_spec_witness :
    GenerateArchiveName [[['x'], ['r', 'e', 'p', 'o', 'r', 't', '.', 'p', 'd', 'f']]]
        ['.', 'z', 'i', 'p'] ⟨2026, 10, 11, 12, 34, 56⟩ =
      ['r', 'e', 'p', 'o', 'r', 't'] ++ '_' ::
        goTimestamp ⟨2026, 10, 11, 12, 34, 56⟩ ++ ['.', 'z', 'i', 'p'] ∧
    (goTimestamp ⟨2026, 10, 11, 12, 34, 56⟩).countP Char.isDigit = 14 := by
  have h := generateArchiveName_spec [[['x'], ['r', 'e', 'p', 'o', 'r', 't', '.', 'p', 'd', 'f']]]
    ['.', 'z', 'i', 'p'] ⟨2026, 10, 11, 12, 34, 56⟩
    (by decide) (by decide) (by decide) (by decide) (by decide) (by decide)
  exact ⟨h.2.2.2.2.2.2.2.1, h.2.2.2.1⟩

/-! ## Uploading: `Client.UploadFiles` and `Client.uploadPath` -/

/-- `models.UploadItem`. -/
structure UploadItem where
  localPath : Str
  remotePath : Str
  size : Int
  isArchived : Bool
deriving DecidableEq

/-- `models.UploadResult` (presentation-only fields `TotalSizeHuman`,
`OperationTime` and `UploadDuration` omitted). -/
structure UploadResult where
  bucketName : Str
  destinationPath : Str
  items : List UploadItem
  totalFiles : Nat
  totalSizeBytes : Int
  archiveCreated : Bool
  archivePath : Str
deriving DecidableEq

/-- The `filepath.Walk` body of `uploadPath` for a directory: upload every
non-directory visit to `resolve(dest, join(base(localPath), relPath))`,
aborting the whole walk at the first failed upload.  `upl` is the S3 put
(true = success); `rootLen` is the component length of the walk root, so
`v.1.drop rootLen` is `filepath.Rel(localPath, path)`. -/
def uploadWalk (upl : Str → Bool) (dest : Str) (base : Str) (rootLen : Nat) :
    List (Path × Bool × Int) → Except OpError (List UploadItem × Int)
  | [] => .ok ([], 0)
  | v :: vs =>
    if v.2.1 then uploadWalk upl dest base rootLen vs
    else
      let remote := buildRemotePath dest (pathStr (base :: v.1.drop rootLen))
      if upl remote then
        match uploadWalk upl dest base rootLen vs with
        | .ok (items, total) =>
          .ok (⟨pathStr v.1, remote, v.2.2, false⟩ :: items, total + v.2.2)
        | .error e => .error e
      else .error (.uploadFailed remote)

/-- `Client.uploadPath`: a single file is uploaded to
`resolve(dest, baseName(localPath))`; a directory is walked recursively. -/
def uploadPath (fs : List FsEntry) (upl : Str → Bool) (localPath : Path)
    (destinationPath : Str) : Except OpError (List UploadItem × Int) :=
  match lookup fs localPath with
  | none => .error (.statFailed localPath)
  | some (.file _ sz) =>
    let remote := buildRemotePath destinationPath (baseP localPath)
    if upl remote then .ok ([⟨pathStr localPath, remote, sz, false⟩], sz)
    else .error (.uploadFailed remote)
  | some (.dir n cs) =>
    uploadWalk upl destinationPath (baseP localPath) localPath.length
      (walkVisits localPath (.dir n cs))

/-- The unarchived loop of `UploadFiles`: each input path independently, in
input order, aborting the whole operation at the first failure. -/
def uploadPaths (fs : List FsEntry) (upl : Str → Bool) (dest : Str) :
    List Path → Except OpError (List UploadItem × Int)
  | [] => .ok ([], 0)
  | p :: rest =>
    match uploadPath fs upl p dest with
    | .error e => .error e
    | .ok (items, size) =>
      match uploadPaths fs upl dest rest with
      | .error e => .error e
      | .ok (items2, total) => .ok (items ++ items2, size + total)

/-- `os.TempDir()`. -/
def tmpDir : Str := ['/', 't', 'm', 'p']

/-- `Client.UploadFiles`.  The second component of the result records whether
the temporary archive file still exists on the local disk when the call
returns: the newer code registers the cleanup `defer` only after the archive
upload has succeeded, so a failed upload returns with the archive still on
disk; a validation or archive-creation failure happens before `os.Create`
has produced the file.  `filepath.Base(archivePath)` is the generated
archive name. -/
def UploadFiles (fs : List FsEntry) (upl : Str → Bool) (zipSize : List ZipEntry → Int)
    (now : DateTime) (bucketName : Str) (paths : List Path) (destinationPath : Str)
    (shouldArchive : Bool) (excludePatterns : List Str) :
    Except OpError UploadResult × Bool :=
  match ValidatePaths fs paths with
  | .error e => (.error e, false)
  | .ok _ =>
    if shouldArchive then
      let archiveName := GenerateArchiveName paths ['.', 'z', 'i', 'p'] now
      let archivePath := tmpDir ++ '/' :: archiveName
      match CreateArchive fs zipSize paths archivePath excludePatterns with
      | .error e => (.error e, false)
      | .ok archiveInfo =>
        let remotePath := buildRemotePath destinationPath archiveName
        if upl remotePath then
          (.ok { bucketName := bucketName, destinationPath := destinationPath,
                 items := [⟨interString [',', ' '] (paths.map pathStr), remotePath,
                           archiveInfo.compressedSize, true⟩],
                 totalFiles := 1, totalSizeBytes := archiveInfo.compressedSize,
                 archiveCreated := true, archivePath := archivePath }, false)
        else
          (.error (.uploadFailed remotePath), true)
    else
      match uploadPaths fs upl destinationPath paths with
      | .error e => (.error e, false)
      | .ok (items, total) =>
        (.ok { bucketName := bucketName, destinationPath := destinationPath,
               items := items, totalFiles := items.length, totalSizeBytes := total,
               archiveCreated := false, archivePath := [] }, false)

theorem uploadWalk_ok (upl : Str → Bool) (dest base : Str) (rootLen : Nat)
    (vs : List (Path × Bool × Int)) (items : List UploadItem) (total : Int)
    (h : uploadWalk upl dest base rootLen vs = .ok (items, total)) :
    total = (items.map UploadItem.size).sum ∧ ∀ it ∈ items, it.isArchived = false := by
  induction vs generalizing items total with
  | nil =>
    cases h
    simp
  | cons v vs ih =>
    rw [uploadWalk] at h
    by_cases hd : v.2.1 = true
    · rw [if_pos hd] at h
      exact ih _ _ h
    · rw [if_neg hd] at h
      dsimp only at h
      by_cases hu : upl (buildRemotePath dest (pathStr (base :: v.1.drop rootLen))) = true
      · rw [if_pos hu] at h
        cases hrec : uploadWalk upl dest base rootLen vs with
        | error e => rw [hrec] at h; cases h
        | ok pr =>
          rcases pr with ⟨items2, total2⟩
          rw [hrec] at h
          cases h
          obtain ⟨h1, h2⟩ := ih _ _ hrec
          refine ⟨by simp [h1]; omega, ?_⟩
          intro it hit
          rcases List.mem_cons.mp hit with rfl | hit2
          · rfl
          · exact h2 it hit2
      · rw [if_neg hu] at h
        cases h

theorem uploadPath_ok (fs : List FsEntry) (upl : Str → Bool) (p : Path) (dest : Str)
    (items : List UploadItem) (total : Int)
    (h : uploadPath fs upl p dest = .ok (items, total)) :
    total = (items.map UploadItem.size).sum ∧ (∀ it ∈ items, it.isArchived = false) ∧
    (∀ nm sz, lookup fs p = some (.file nm sz) →
      items = [⟨pathStr p, buildRemotePath dest (baseP p), sz, false⟩]) := by
  unfold uploadPath at h
  cases hl : lookup fs p with
  | none => rw [hl] at h; cases h
  | some e =>
    rw [hl] at h
    match e with
    | .file nm sz =>
      dsimp only at h
      split at h
      · cases h
        refine ⟨by simp, by simp, ?_⟩
        intro nm' sz' he
        have hinj := Option.some.inj he
        cases hinj
        rfl
      · cases h
    | .dir nm cs =>
      dsimp only at h
      obtain ⟨h1, h2⟩ := uploadWalk_ok _ _ _ _ _ _ _ h
      refine ⟨h1, h2, ?_⟩
      intro nm' sz' he
      cases Option.some.inj he

theorem uploadPaths_ok (fs : List FsEntry) (upl : Str → Bool) (dest : Str)
    (ps : List Path) (items : List UploadItem) (total : Int)
    (h : uploadPaths fs upl dest ps = .ok (items, total)) :
    total = (items.map UploadItem.size).sum ∧ (∀ it ∈ items, it.isArchived = false) ∧
    ((∀ p ∈ ps, ∃ nm sz, lookup fs p = some (.file nm sz)) →
      items.map UploadItem.remotePath =
        ps.map (fun p => buildRemotePath dest (baseP p)) ∧
      items.map UploadItem.localPath = ps.map pathStr ∧
      items.length = ps.length) := by
  induction ps generalizing items total with
  | nil =>
    cases h
    simp
  | cons p rest ih =>
    rw [uploadPaths] at h
    cases h1 : uploadPath fs upl p dest with
    | error e => rw [h1] at h; cases h
    | ok pr1 =>
      rcases pr1 with ⟨items1, size1⟩
      rw [h1] at h
      cases h2 : uploadPaths fs upl dest rest with
      | error e => rw [h2] at h; cases h
      | ok pr2 =>
        rcases pr2 with ⟨items2, total2⟩
        rw [h2] at h
        cases h
        obtain ⟨ha1, ha2, ha3⟩ := uploadPath_ok _ _ _ _ _ _ h1
        obtain ⟨hb1, hb2, hb3⟩ := ih _ _ h2
        refine ⟨by simp [ha1, hb1], ?_, ?_⟩
        · intro it hit
          rcases List.mem_append.mp hit with hit1 | hit2
          · exact ha2 it hit1
          · exact hb2 it hit2
        · intro hall
          obtain ⟨nm, sz, hf⟩ := hall p (by simp)
          have hi1 := ha3 nm sz hf
          obtain ⟨hc1, hc2, hc3⟩ := hb3 (fun q hq => hall q (List.mem_cons_of_mem _ hq))
          subst hi1
          refine ⟨?_, ?_, ?_⟩ <;> simp [hc1, hc2, hc3]

/-- C7: every successful `UploadFiles` call reports `archiveCreated =
shouldArchive`, `totalSizeBytes` equal to the sum of the items' sizes and
`totalFiles` equal to the number of items; with `shouldArchive = true` the
result has exactly one item, archived, whose `localPath` is the input paths
joined by `", "`; with `shouldArchive = false` every item is unarchived and,
when every input path is a single file, there is exactly one item per input
path with remote key `resolve(destination, baseName(localPath))`. -/
theorem uploadFiles_result_spec (fs : List FsEntry) (upl : Str → Bool)
    (zipSize : List ZipEntry → Int) (now : DateTime) (bucketName : Str)
    (paths : List Path) (destinationPath : Str) (shouldArchive : Bool)
    (excludePatterns : List Str) (res : UploadResult)
    (h : (UploadFiles fs upl zipSize now bucketName paths destinationPath
        shouldArchive excludePatterns).1 = .ok res) :
    res.archiveCreated = shouldArchive ∧
    res.totalSizeBytes = (res.items.map UploadItem.size).sum ∧
    res.totalFiles = res.items.length ∧
    (shouldArchive = true →
      res.items.length = 1 ∧ (∀ it ∈ res.items, it.isArchived = true) ∧
      res.items.map UploadItem.localPath =
        [interString [',', ' '] (paths.map pathStr)]) ∧
    (shouldArchive = false →
      (∀ it ∈ res.items, it.isArchived = false) ∧
      ((∀ p ∈ paths, ∃ nm sz, lookup fs p = some (.file nm sz)) →
        res.items.map UploadItem.remotePath =
          paths.map (fun p => buildRemotePath destinationPath (baseP p)) ∧
        res.items.map UploadItem.localPath = paths.map pathStr ∧
        res.items.length = paths.length)) := by
  unfold UploadFiles at h
  cases hv : ValidatePaths fs paths with
  | error e => rw [hv] at h; cases h
  | ok u =>
    cases u
    rw [hv] at h
    cases shouldArchive with
    | true =>
      dsimp only at h
      cases hca : CreateArchive fs zipSize paths
          (tmpDir ++ '/' :: GenerateArchiveName paths ['.', 'z', 'i', 'p'] now)
          excludePatterns with
      | error e => rw [hca] at h; simp at h
      | ok archiveInfo =>
        rw [hca] at h
        dsimp only at h
        by_cases hu : upl (buildRemotePath destinationPath
            (GenerateArchiveName paths ['.', 'z', 'i', 'p'] now)) = true
        · rw [if_pos hu] at h
          have h2 := Except.ok.inj h
          subst h2
          refine ⟨rfl, by simp, rfl, ?_, fun hff => absurd hff (by decide)⟩
          intro _
          exact ⟨rfl, by simp, rfl⟩
        · rw [if_neg hu] at h
          simp at h
    | false =>
      dsimp only at h
      cases hup : uploadPaths fs upl destinationPath paths with
      | error e => rw [hup] at h; simp at h
      | ok pr =>
        rcases pr with ⟨items, total⟩
        rw [hup] at h
        dsimp only at h
        have h2 := Except.ok.inj h
        subst h2
        obtain ⟨h1, h2, h3⟩ := uploadPaths_ok _ _ _ _ _ _ hup
        exact ⟨rfl, h1, rfl, fun hff => absurd hff (by decide), fun _ => ⟨h2, h3⟩⟩

theorem uploadFiles_result_spec_witness :
    ((UploadFiles [FsEntry.file ['a'] 3, FsEntry.file ['b'] 5] (fun _ => true)
        (fun _ => 9) ⟨2026, 1, 2, 3, 4, 5⟩ ['B'] [[['a']], [['b']]] ['d'] false []).1 =
      .ok { bucketName := ['B'], destinationPath := ['d'],
            items := [⟨['a'], ['d', '/', 'a'], 3, false⟩,
                      ⟨['b'], ['d', '/', 'b'], 5, false⟩],
            totalFiles := 2, totalSizeBytes := 8,
            archiveCreated := false, archivePath := [] }) ∧
    ({ bucketName := ['B'], destinationPath := ['d'],
       items := [⟨['a'], ['d', '/', 'a'], 3, false⟩,
                 ⟨['b'], ['d', '/', 'b'], 5, false⟩],
       totalFiles := 2, totalSizeBytes := 8,
       archiveCreated := false, archivePath := [] } : UploadResult).archiveCreated = false ∧
    ({ bucketName := ['B'], destinationPath := ['d'],
       items := [⟨['a'], ['d', '/', 'a'], 3, false⟩,
                 ⟨['b'], ['d', '/', 'b'], 5, false⟩],
       totalFiles := 2, totalSizeBytes := 8,
       archiveCreated := false, archivePath := [] } : UploadResult).totalSizeBytes =
      (({ bucketName := ['B'], destinationPath := ['d'],
          items := [⟨['a'], ['d', '/', 'a'], 3, false⟩,
                    ⟨['b'], ['d', '/', 'b'], 5, false⟩],
          totalFiles := 2, totalSizeBytes := 8,
          archiveCreated := false, archivePath := [] } : UploadResult).items.map
        UploadItem.size).sum := by
  have heval : (UploadFiles [FsEntry.file ['a'] 3, FsEntry.file ['b'] 5] (fun _ => true)
      (fun _ => 9) ⟨2026, 1, 2, 3, 4, 5⟩ ['B'] [[['a']], [['b']]] ['d'] false []).1 =
      .ok { bucketName := ['B'], destinationPath := ['d'],
            items := [⟨['a'], ['d', '/', 'a'], 3, false⟩,
                      ⟨['b'], ['d', '/', 'b'], 5, false⟩],
            totalFiles := 2, totalSizeBytes := 8,
            archiveCreated := false, archivePath := [] } := by
    simp [UploadFiles, ValidatePaths, lookup, uploadPaths, uploadPath, uploadWalk,
      buildRemotePath, trimOneLeadingSlash, ensureTrailingSlash, baseP, pathStr,
      interString, entryName]
  have hthm := uploadFiles_result_spec _ _ _ _ _ _ _ _ _ _ heval
  exact ⟨heval, hthm.1, hthm.2.1⟩

set_option maxRecDepth 4096 in
/-- C1 at the failing input (code bug): `shouldArchive = true`, the archive
is created, and the upload call fails.  The newer `UploadFiles` registers the
cleanup `defer` only after a successful upload, so the call returns the
upload error with the temporary archive file still on disk (second component
`true`); when the upload succeeds the deferred cleanup removes it. -/
theorem uploadFiles_leaves_temp_archive :
    (UploadFiles [FsEntry.file ['f'] 4] (fun _ => false) (fun _ => 7)
        ⟨2026, 1, 2, 3, 4, 5⟩ ['B'] [[['f']]] ['d'] true []).1.isOk = false ∧
    (UploadFiles [FsEntry.file ['f'] 4] (fun _ => false) (fun _ => 7)
        ⟨2026, 1, 2, 3, 4, 5⟩ ['B'] [[['f']]] ['d'] true []).2 = true ∧
    (UploadFiles [FsEntry.file ['f'] 4] (fun _ => true) (fun _ => 7)
        ⟨2026, 1, 2, 3, 4, 5⟩ ['B'] [[['f']]] ['d'] true []).2 = false := by
  have harch : CreateArchive [FsEntry.file ['f'] 4] (fun _ => 7) [[['f']]]
      (tmpDir ++ '/' :: GenerateArchiveName [[['f']]] ['.', 'z', 'i', 'p'] ⟨2026, 1, 2, 3, 4, 5⟩)
      [] =
      .ok { archivePath := tmpDir ++ '/' ::
              GenerateArchiveName [[['f']]] ['.', 'z', 'i', 'p'] ⟨2026, 1, 2, 3, 4, 5⟩,
            originalPaths := [[['f']]], compressedSize := 7, originalSize := 4,
            compressionRatio := (7 : ℚ) / 4 } := by
    norm_num [CreateArchive, ValidatePaths, lookup, buildArchive, getPathSize,
      walkVisits, fileSum, archWalk, shouldExclude, entryName, zipName, baseP]
  refine ⟨?_, ?_, ?_⟩ <;>
    simp [UploadFiles, ValidatePaths, lookup, entryName, harch, Except.isOk, Except.toBool]

/-! ### Download: `Client.DownloadLatestFile` -/

/-- `models.DownloadItem`.  The Go field `LastModified` holds
`latestObject.LastModified.Format(time.RFC3339)`; the RFC3339 rendering of the
instant is abstracted to the instant itself. -/
structure DownloadItem where
  remotePath : Str
  localPath : Str
  size : Int
  lastModified : Int
deriving DecidableEq

/-- `models.DownloadResult` (presentation-only fields `TotalSizeHuman`,
`OperationTime` and `DownloadDuration` omitted). -/
structure DownloadResult where
  bucketName : Str
  sourcePath : Str
  items : List DownloadItem
  totalFiles : Nat
  totalSizeBytes : Int
deriving DecidableEq

/-- The postcondition of
`sort.Slice(objects, func(i, j) { return objects[i].LastModified.After(*objects[j].LastModified) })`:
the slice afterwards (`l'`) is a permutation of the slice before (`l`) that is
sorted with respect to the comparison, i.e. non-increasing in the
last-modified instant.  `sort.Slice` promises nothing more: it is documented
as not stable (its pdqsort runs a stable insertion sort only on small slices),
so the relative order of objects with equal instants is NOT specified. -/
def sortSliceOK (l l' : List S3Object) : Prop :=
  l'.Perm l ∧ l'.Pairwise (fun a b => b.lastModified ≤ a.lastModified)

/-- `filepath.Base` on a slash-separated string (Unix rules): empty path gives
`"."`, trailing separators are stripped, the last component is returned, and an
all-separator path gives `"/"`. -/
def strBase (s : Str) : Str :=
  if s = [] then ['.']
  else
    let r := s.reverse.dropWhile (fun c => c = '/')
    let b := r.takeWhile (fun c => c ≠ '/')
    if b = [] then ['/'] else b.reverse

/-- `filepath.Join` of two components: empty components are dropped and the
rest joined with one separator.  (`Join` additionally runs `Clean` on the
result; `Clean` is the identity on the already-clean paths arising here.) -/
def joinPath (d f : Str) : Str :=
  if d = [] then f else if f = [] then d else d ++ '/' :: f

/-- `Client.DownloadLatestFile` from `internal/s3client`.  `lister` is the
paginated `ListObjectsV2` enumeration under a prefix (pages concatenated in
order, the provider's listing order), `dl` the `manager.Downloader` call keyed
by the object key, and `sorter` the outcome of the in-place
`sort.Slice(objects, …After…)` call — an arbitrary function, constrained only
by the hypothesis `sortSliceOK` where a theorem needs the sort's
postcondition, because `sort.Slice` guarantees a sorted permutation and
nothing about the order of ties.  `os.MkdirAll` and `os.Create` are modeled
as succeeding.  The prefix is the folder with a `/` appended when non-empty
and not already slash-terminated (`listKey`, shared with `DeleteOldFiles`).
The empty-listing guard `len(objects) == 0` precedes the sort; the inner nil
branch after sorting is unreachable under `sortSliceOK` (a permutation of a
non-empty list is non-empty).  The first object of the sorted slice is
downloaded to `filepath.Join(destinationPath, filepath.Base(key))`. -/
def DownloadLatestFile (lister : Str → List S3Object)
    (sorter : List S3Object → List S3Object) (dl : Str → Bool)
    (bucketName folder destinationPath : Str) : Except OpError DownloadResult :=
  let objects := lister (listKey folder)
  if objects = [] then .error (.noFilesFound folder)
  else
    match sorter objects with
    | [] => .error (.noFilesFound folder)
    | latest :: _ =>
        let localFilePath := joinPath destinationPath (strBase latest.key)
        if dl latest.key then
          .ok { bucketName := bucketName, sourcePath := folder,
                items := [{ remotePath := latest.key, localPath := localFilePath,
                            size := latest.size, lastModified := latest.lastModified }],
                totalFiles := 1, totalSizeBytes := latest.size }
        else .error (.downloadFailed latest.key)

/-- The first object in listing order attaining the maximum last-modified
instant, starting from current best `best`: later objects replace the best
only when strictly newer.  This renders the spec's words "ties broken by
provider listing order — first one wins". -/
def firstMaxAux (best : S3Object) : List S3Object → S3Object
  | [] => best
  | y :: ys => firstMaxAux (if best.lastModified < y.lastModified then y else best) ys

/-- A filler object for the counterexample listing: old (instant 0). -/
def tieFill : S3Object := ⟨['z'], 0, 0⟩

/-- The counterexample listing: 13 objects — more than the 12 below which
Go's sort happens to run a stable insertion sort — where the first-listed
object `"a"` and the last-listed object `"b"` are tied for the maximum
last-modified instant 9. -/
def tieListing : List S3Object :=
  ⟨['a'], 9, 1⟩ :: (List.replicate 11 tieFill ++ [⟨['b'], 9, 2⟩])

/-- A sort outcome for `tieListing` that satisfies everything `sort.Slice`
guarantees (`sortSliceOK`) yet places the later-listed tied object `"b"`
first. -/
def tieSorted : List S3Object :=
  ⟨['b'], 9, 2⟩ :: ⟨['a'], 9, 1⟩ :: List.replicate 11 tieFill

/-- C8 counterexample: on a 13-object listing whose first and last objects are
tied for the newest instant, a sort outcome satisfying the full `sort.Slice`
postcondition (sorted permutation — the sort is documented unstable, and its
stable insertion-sort path covers only slices shorter than about 12) makes
`DownloadLatestFile` download the later-listed tied object `"b"`, not the
first-listed maximum `"a"` that the spec's tie-break rule designates.  So the
"first listed wins" conclusion is not a consequence of what the program
guarantees. -/
theorem downloadLatestFile_tiebreak_counterexample :
    sortSliceOK tieListing tieSorted ∧
    tieListing.length = 13 ∧
    tieListing.head? = some ⟨['a'], 9, 1⟩ ∧
    firstMaxAux ⟨['a'], 9, 1⟩ (List.replicate 11 tieFill ++ [⟨['b'], 9, 2⟩]) =
      ⟨['a'], 9, 1⟩ ∧
    DownloadLatestFile (fun _ => tieListing) (fun _ => tieSorted) (fun _ => true)
        ['B'] ['f'] ['d'] =
      Except.ok { bucketName := ['B'], sourcePath := ['f'],
                  items := [{ remotePath := ['b'], localPath := ['d', '/', 'b'],
                              size := 2, lastModified := 9 }],
                  totalFiles := 1, totalSizeBytes := 2 } ∧
    (['b'] : Str) ≠ ['a'] := by
  refine ⟨⟨?_, by decide⟩, by decide, by decide, by decide, by decide, by decide⟩
  show (⟨['b'], 9, 2⟩ :: ⟨['a'], 9, 1⟩ :: List.replicate 11 tieFill).Perm
    ((⟨['a'], 9, 1⟩ :: List.replicate 11 tieFill) ++ [⟨['b'], 9, 2⟩])
  exact (List.perm_append_singleton _ _).symm

/-- C8 (amended): `DownloadLatestFile` fails with the no-files-found error
exactly when the listing under the prefix derived from `folder` is empty.
For a non-empty listing, any sort outcome meeting the `sort.Slice`
postcondition has the same length as the listing (hence is non-empty), and
its head `latest` — the object selected for download — is one of the listed
objects and carries the maximum last-modified instant among them; when the
download call succeeds the result holds exactly one item for that object,
stored at `filepath.Join(destinationPath, filepath.Base(key))`, with
`totalFiles = 1` and `totalSizeBytes` its size, and when the download call
fails the error names that same key.  Which of several tied-maximum objects
is selected is NOT determined (`sort.Slice` is unstable; see the
counterexample). -/
theorem downloadLatestFile_spec (lister : Str → List S3Object)
    (sorter : List S3Object → List S3Object) (dl : Str → Bool)
    (bucketName folder destinationPath : Str)
    (hsort : sortSliceOK (lister (listKey folder))
      (sorter (lister (listKey folder)))) :
    (DownloadLatestFile lister sorter dl bucketName folder destinationPath =
        Except.error (OpError.noFilesFound folder) ↔ lister (listKey folder) = []) ∧
    ((sorter (lister (listKey folder))).length = (lister (listKey folder)).length) ∧
    (∀ latest rest, sorter (lister (listKey folder)) = latest :: rest →
      latest ∈ lister (listKey folder) ∧
      (∀ o ∈ lister (listKey folder), o.lastModified ≤ latest.lastModified) ∧
      (dl latest.key = true →
        DownloadLatestFile lister sorter dl bucketName folder destinationPath =
          Except.ok { bucketName := bucketName, sourcePath := folder,
                      items := [{ remotePath := latest.key,
                                  localPath := joinPath destinationPath
                                    (strBase latest.key),
                                  size := latest.size,
                                  lastModified := latest.lastModified }],
                      totalFiles := 1, totalSizeBytes := latest.size }) ∧
      (dl latest.key = false →
        DownloadLatestFile lister sorter dl bucketName folder destinationPath =
          Except.error (OpError.downloadFailed latest.key))) := by
  obtain ⟨hperm, hsorted⟩ := hsort
  refine ⟨?_, hperm.length_eq, ?_⟩
  · cases hls : lister (listKey folder) with
    | nil => simp [DownloadLatestFile, hls]
    | cons x xs =>
        have hnil : sorter (lister (listKey folder)) ≠ [] := by
          intro hh
          rw [hh, hls] at hperm
          cases hperm.symm.eq_nil
        cases hsg : sorter (lister (listKey folder)) with
        | nil => exact absurd hsg hnil
        | cons latest rest =>
            rw [hls] at hsg
            simp only [DownloadLatestFile, hls, hsg]
            split_ifs <;> simp_all
  · intro latest rest hsg
    have hls : lister (listKey folder) ≠ [] := by
      intro hh
      rw [hsg] at hperm
      rw [hh] at hperm
      cases hperm.eq_nil
    have hmem : latest ∈ lister (listKey folder) := by
      apply hperm.mem_iff.mp
      rw [hsg]
      exact List.mem_cons_self _ _
    have hmax : ∀ o ∈ lister (listKey folder), o.lastModified ≤ latest.lastModified := by
      intro o ho
      have ho' : o ∈ latest :: rest := by
        rw [← hsg]
        exact hperm.mem_iff.mpr ho
      rcases List.mem_cons.mp ho' with hb | hb
      · rw [hb]
      · have hp := List.pairwise_cons.mp (hsg ▸ hsorted)
        exact hp.1 o hb
    refine ⟨hmem, hmax, ?_, ?_⟩ <;> intro hdl <;>
      (cases hlsv : lister (listKey folder) with
       | nil => exact absurd hlsv hls
       | cons x xs =>
           rw [hlsv] at hsg
           simp [DownloadLatestFile, hlsv, hsg, hdl])

theorem downloadLatestFile_spec_witness :
    DownloadLatestFile (fun _ => [(⟨['a'], 5, 10⟩ : S3Object), ⟨['b'], 9, 20⟩])
        (fun _ => [(⟨['b'], 9, 20⟩ : S3Object), ⟨['a'], 5, 10⟩]) (fun _ => true)
        ['B'] ['f'] ['d'] =
      Except.ok { bucketName := ['B'], sourcePath := ['f'],
                  items := [{ remotePath := ['b'], localPath := ['d', '/', 'b'],
                              size := 20, lastModified := 9 }],
                  totalFiles := 1, totalSizeBytes := 20 } := by
  have h := (downloadLatestFile_spec
      (fun _ => [⟨['a'], 5, 10⟩, ⟨['b'], 9, 20⟩])
      (fun _ => [⟨['b'], 9, 20⟩, ⟨['a'], 5, 10⟩]) (fun _ => true) ['B'] ['f'] ['d']
      ⟨List.Perm.swap _ _ _, by decide⟩).2.2
      ⟨['b'], 9, 20⟩ [⟨['a'], 5, 10⟩] rfl
  have h2 := h.2.2.1 rfl
  simpa [joinPath, strBase] using h2
